import Mathlib

/-!
Shallow embedding of the step-workflow engine of `src/app.py` (Flask +
SQLAlchemy).  Entities are records, the store is a record of lists kept in
insertion order (SQLite autoincrement ids are modelled by per-table
counters), and each route handler becomes a pure function from the store
and the authenticated user's id to `Except WfError` of the updated store.
Wall-clock timestamps are modelled by an explicit `now : Nat` tick passed
to the operations that stamp `completed_at`; the `created_at` / `updated_at`
bookkeeping columns, password hashes and JWT handling are outside the
workflow logic the claims are about and are not modelled.
-/

namespace NewsWorkflow

/-- Mirrors the `User` model: only the fields the workflow engine reads.
Credential fields (`password_hash` etc.) belong to the external
authentication collaborator. -/
structure User where
  id : Nat
  isActive : Bool
  deriving DecidableEq, Repr

/-- Mirrors the `Project` model.  `status` is the literal string column
(values `"In Progress"`, `"Completed"`, `"Cancelled"`); `currentStepNumber`
is the nullable `current_step_number` column. -/
structure Project where
  id : Nat
  projectName : String
  description : String
  ownerId : Nat
  status : String
  currentStepNumber : Option Int
  deriving DecidableEq, Repr

/-- Mirrors the `ProjectStep` model; `status` takes the literal strings
`"Pending"`, `"In Progress"`, `"Completed"`, `"Sent Back"`;
`completedAt` is the nullable `completed_at` timestamp (a tick). -/
structure ProjectStep where
  id : Nat
  projectId : Nat
  stepNumber : Int
  stepName : String
  taskDescription : String
  assignedUserId : Nat
  status : String
  completedAt : Option Nat
  deriving DecidableEq, Repr

/-- Mirrors the `WorkflowAction` audit model (timestamp column omitted:
rows are kept in insertion order, which is how ties are displayed). -/
structure WorkflowAction where
  id : Nat
  projectId : Nat
  stepId : Option Nat
  userId : Nat
  action : String
  stepNumber : Option Int
  comments : Option String
  deriving DecidableEq, Repr

/-- Mirrors the `ProjectAsset` model (storage-key and metadata columns are
opaque to the workflow engine). -/
structure ProjectAsset where
  id : Nat
  projectId : Nat
  uploadedBy : Nat
  assetType : String
  filename : String
  deriving DecidableEq, Repr

/-- Mirrors the `Notification` model. -/
structure Notification where
  id : Nat
  userId : Nat
  projectId : Option Nat
  message : String
  isRead : Bool
  deriving DecidableEq, Repr

/-- The persistent store: one list per table, rows in insertion order,
plus the autoincrement counters. -/
structure Db where
  users : List User
  projects : List Project
  steps : List ProjectStep
  actions : List WorkflowAction
  assets : List ProjectAsset
  notifications : List Notification
  nextProjectId : Nat
  nextStepId : Nat
  nextActionId : Nat
  nextNotificationId : Nat
  deriving DecidableEq, Repr

/-- The typed errors the routes return.  Each constructor corresponds to
one early-return `jsonify({error: ...}), code` in `src/app.py`; the
spec's taxonomy maps onto them as:
`ValidationError` = `validationEmptySteps` / `validationCommentsRequired` (400),
`NotFoundError` = `notFoundUser` / `notFoundProject` (404),
`ForbiddenError` = `forbiddenNotOwner` / `forbiddenNotAssigned` /
`forbiddenAccessDenied` (403),
`InvalidStateError` = `invalidStateNoActiveStep` / `invalidStateNoPreviousStep` (400).
`internalError` models the uncaught `ValueError` from `max([])` when
`edit_project` receives an empty `steps` list (HTTP 500, nothing committed). -/
inductive WfError where
  | validationEmptySteps
  | notFoundUser (userId : Nat)
  | notFoundProject
  | forbiddenNotOwner
  | invalidStateNoActiveStep
  | forbiddenNotAssigned
  | validationCommentsRequired
  | invalidStateNoPreviousStep
  | forbiddenAccessDenied
  | internalError
  deriving DecidableEq, Repr

/-- `User.query.get(uid)` / `db.session.get(User, uid)`. -/
def userById (db : Db) (uid : Nat) : Option User :=
  db.users.find? (fun u => u.id == uid)

/-- `db.session.get(Project, pid)`. -/
def projectById (db : Db) (pid : Nat) : Option Project :=
  db.projects.find? (fun p => p.id == pid)

/-- `ProjectStep.query.filter_by(project_id=pid)`: the steps of one
project, in insertion order. -/
def stepsOf (db : Db) (pid : Nat) : List ProjectStep :=
  db.steps.filter (fun s => s.projectId == pid)

/-- Lookup of a step row by primary key. -/
def stepById (db : Db) (sid : Nat) : Option ProjectStep :=
  db.steps.find? (fun s => s.id == sid)

/-- `ORDER BY step_number DESC ... first()`: the row with the greatest
`step_number`; among equal numbers the earliest-inserted row is kept,
matching the storage-order scan of the query. -/
def maxByStepNumber : List ProjectStep → Option ProjectStep
  | [] => none
  | s :: rest =>
    match maxByStepNumber rest with
    | none => some s
    | some m => if s.stepNumber < m.stepNumber then some m else some s

/-- `ORDER BY step_number ASC ... first()`: the row with the least
`step_number`, earliest-inserted among ties. -/
def minByStepNumber : List ProjectStep → Option ProjectStep
  | [] => none
  | s :: rest =>
    match minByStepNumber rest with
    | none => some s
    | some m => if m.stepNumber < s.stepNumber then some m else some s

/-- `get_current_step(project)`.  Python's `if not project.current_step_number`
is taken for `None` and also for `0` (integer falsiness), so a project whose
current step number is `0` is reported as having no active step. -/
def get_current_step (db : Db) (project : Project) : Option ProjectStep :=
  match project.currentStepNumber with
  | none => none
  | some n =>
    if n = 0 then none
    else db.steps.find? (fun s => s.projectId == project.id && s.stepNumber == n)

/-- `get_next_step(project)`: the project's step with the greatest
`step_number` strictly below the current one (same integer falsiness on
the current number as `get_current_step`). -/
def get_next_step (db : Db) (project : Project) : Option ProjectStep :=
  match project.currentStepNumber with
  | none => none
  | some n =>
    if n = 0 then none
    else maxByStepNumber ((db.steps.filter (fun s => s.projectId == project.id)).filter
      (fun s => decide (s.stepNumber < n)))

/-- `get_previous_step(project)`: the project's step with the least
`step_number` strictly above the current one. -/
def get_previous_step (db : Db) (project : Project) : Option ProjectStep :=
  match project.currentStepNumber with
  | none => none
  | some n =>
    if n = 0 then none
    else minByStepNumber ((db.steps.filter (fun s => s.projectId == project.id)).filter
      (fun s => decide (n < s.stepNumber)))

/-- `log_action(...)`: appends one audit row.  In the source this helper
issues its own `db.session.commit()`; the commit structure is made
explicit in `create_project_commits` below. -/
def log_action (db : Db) (projectId userId : Nat) (action : String)
    (stepNumber : Option Int) (stepId : Option Nat) (comments : Option String) : Db :=
  { db with
    actions := db.actions ++
      [{ id := db.nextActionId, projectId := projectId, stepId := stepId,
         userId := userId, action := action, stepNumber := stepNumber,
         comments := comments }]
    nextActionId := db.nextActionId + 1 }

/-- `create_notification(...)`: appends one unread notification row (this
helper also commits on its own in the source). -/
def create_notification (db : Db) (userId : Nat) (projectId : Option Nat)
    (message : String) : Db :=
  { db with
    notifications := db.notifications ++
      [{ id := db.nextNotificationId, userId := userId, projectId := projectId,
         message := message, isRead := false }]
    nextNotificationId := db.nextNotificationId + 1 }

/-- Applies `f` to the step row with primary key `sid` (an ORM attribute
assignment on a loaded row). -/
def updateStepById (db : Db) (sid : Nat) (f : ProjectStep → ProjectStep) : Db :=
  { db with steps := db.steps.map (fun s => if s.id == sid then f s else s) }

/-- Applies `f` to the project row with primary key `pid`. -/
def updateProjectById (db : Db) (pid : Nat) (f : Project → Project) : Db :=
  { db with projects := db.projects.map (fun p => if p.id == pid then f p else p) }

/-- One element of the `steps` array of a create/edit request body. -/
structure StepInput where
  stepNumber : Int
  stepName : String
  taskDescription : String
  assignedUserId : Nat
  deriving DecidableEq, Repr

/-- Request body of `POST /api/projects/create` (the three required
fields; a request missing one of them is rejected before any logic runs
and is not modelled). -/
structure CreateProjectInput where
  projectName : String
  description : String
  steps : List StepInput
  deriving DecidableEq, Repr

/-- Request body of `PUT /api/projects/(id)/edit`; absent keys are `none`. -/
structure EditProjectInput where
  projectName : Option String
  description : Option String
  steps : Option (List StepInput)
  deriving DecidableEq, Repr

/-- Python's `max([s.step_number for s in steps])`: `none` on the empty
list, where the source raises `ValueError`. -/
def maxStepNumber : List StepInput → Option Int
  | [] => none
  | x :: xs => some (xs.foldl (fun m s => max m s.stepNumber) x.stepNumber)

/-- The bulk `ProjectStep(...)` inserts of create/edit: every row is
created with status `'Pending'`, no completion timestamp, and consecutive
autoincrement ids starting at `firstId`. -/
def stepsFromInputs (pid firstId : Nat) : List StepInput → List ProjectStep
  | [] => []
  | sd :: rest =>
    { id := firstId, projectId := pid, stepNumber := sd.stepNumber,
      stepName := sd.stepName, taskDescription := sd.taskDescription,
      assignedUserId := sd.assignedUserId, status := "Pending",
      completedAt := none } :: stepsFromInputs pid (firstId + 1) rest

/-- Appends the bulk-created step rows and advances the id counter. -/
def insertSteps (db : Db) (pid : Nat) (l : List StepInput) : Db :=
  { db with steps := db.steps ++ stepsFromInputs pid db.nextStepId l,
            nextStepId := db.nextStepId + l.length }

/-- The notification text of `create_project`. -/
def createMessage (name : String) (highest : Int) (stepName : String) : String :=
  "New project assigned: " ++ name ++ ". You are at Step " ++ toString highest
    ++ ": " ++ stepName

/-- The notification text of the forward branch of `forward_step`. -/
def forwardMessage (name : String) (n : Int) (stepName : String) : String :=
  "Project forwarded to you: " ++ name ++ ". Step " ++ toString n ++ ": " ++ stepName

/-- The notification text of the completion branch of `forward_step`. -/
def completeMessage (name : String) : String :=
  "Project completed: " ++ name ++ ". All steps finished."

/-- The notification text of `send_back_step`; the justification comment
is embedded after `"Reason: "`. -/
def sendBackMessage (name : String) (n : Int) (stepName : String) (comments : String) :
    String :=
  "Project sent back to you: " ++ name ++ ". Step " ++ toString n ++ ": " ++ stepName
    ++ ". Reason: " ++ comments

/-- `create_project` with its three commit points made explicit.  The
source validates the input, builds the project and its steps, sets
`current_step_number` to the highest step number, marks the first row
with that number `'In Progress'`, and then commits (first snapshot);
`log_action` commits the `'create'` audit row (second snapshot);
`create_notification` commits the notification to the highest step's
assignee (third snapshot).  The returned list holds the store as it is
observable after each commit. -/
def create_project_commits (db : Db) (currentUserId : Nat)
    (data : CreateProjectInput) : Except WfError (List Db) :=
  if data.steps.isEmpty then .error .validationEmptySteps
  else
    match data.steps.find? (fun sd => (userById db sd.assignedUserId).isNone) with
    | some sd => .error (.notFoundUser sd.assignedUserId)
    | none =>
      match maxStepNumber data.steps with
      | none => .error .internalError
      | some highest =>
        let pid := db.nextProjectId
        let db1 : Db :=
          { db with
            projects := db.projects ++
              [{ id := pid, projectName := data.projectName,
                 description := data.description, ownerId := currentUserId,
                 status := "In Progress", currentStepNumber := none }],
            nextProjectId := pid + 1 }
        let db2 := insertSteps db1 pid data.steps
        let db3 := updateProjectById db2 pid
          (fun p => { p with currentStepNumber := some highest })
        match db3.steps.find? (fun s => s.projectId == pid && s.stepNumber == highest) with
        | some hso =>
          let c1 := updateStepById db3 hso.id (fun t => { t with status := "In Progress" })
          let c2 := log_action c1 pid currentUserId "create" none none
            (some "Project created")
          let c3 := create_notification c2 hso.assignedUserId (some pid)
            (createMessage data.projectName highest hso.stepName)
          .ok [c1, c2, c3]
        | none =>
          let c2 := log_action db3 pid currentUserId "create" none none
            (some "Project created")
          .ok [db3, c2]

/-- `POST /api/projects/create`: the final state after the last commit. -/
def create_project (db : Db) (currentUserId : Nat) (data : CreateProjectInput) :
    Except WfError Db :=
  (create_project_commits db currentUserId data).map (fun l => l.getLastD db)

/-- The in-place name/description patch of `edit_project`. -/
def applyEditFields (nm ds : Option String) (p : Project) : Project :=
  let p1 := match nm with
    | some x => { p with projectName := x }
    | none => p
  match ds with
  | some d => { p1 with description := d }
  | none => p1

/-- `PUT /api/projects/(id)/edit`.  Owner-only; optionally renames, and
when a `steps` list is supplied it deletes every existing step of the
project, bulk-creates the new ones (all `'Pending'`), and resets
`current_step_number` to the new highest number.  No step is marked
`'In Progress'` and the project status is left untouched.  With an empty
`steps` list the source raises `ValueError` at `max([])` (HTTP 500), with
nothing committed. -/
def edit_project (db : Db) (currentUserId : Nat) (projectId : Nat)
    (data : EditProjectInput) : Except WfError Db :=
  match projectById db projectId with
  | none => .error .notFoundProject
  | some project =>
    if project.ownerId = currentUserId then
      let db1 := updateProjectById db projectId
        (applyEditFields data.projectName data.description)
      match data.steps with
      | none =>
        .ok (log_action db1 projectId currentUserId "edit" none none
          (some "Project edited"))
      | some stepList =>
        let db2 : Db :=
          { db1 with steps := db1.steps.filter (fun s => s.projectId != projectId) }
        let db3 := insertSteps db2 projectId stepList
        match maxStepNumber stepList with
        | none => .error .internalError
        | some highest =>
          let db4 := updateProjectById db3 projectId
            (fun p => { p with currentStepNumber := some highest })
          .ok (log_action db4 projectId currentUserId "edit" none none
            (some "Project edited"))
    else .error .forbiddenNotOwner

/-- `DELETE /api/projects/(id)/delete`.  Owner-only.  Despite the
source's "cascade will delete steps, actions, etc." comment, only the
`Project.steps` relationship carries `cascade='all, delete-orphan'`.
`WorkflowAction.project_id` and `ProjectAsset.project_id` are NOT NULL
columns whose relationships (`backref='actions'`, `backref='assets'`)
have no delete cascade, so on `db.session.delete(project)` SQLAlchemy
nullifies those foreign keys at flush and the commit raises
`IntegrityError` (HTTP 500, transaction rolled back, nothing changed)
whenever the project has any audit row or asset.  Only a project with
neither is actually removed, together with its steps;
`Notification.project_id` is nullable, so the project's notifications
survive with the reference set to NULL.  No `log_action` call is made in
any outcome. -/
def delete_project (db : Db) (currentUserId : Nat) (projectId : Nat) :
    Except WfError Db :=
  match projectById db projectId with
  | none => .error .notFoundProject
  | some project =>
    if project.ownerId = currentUserId then
      if db.actions.any (fun a => a.projectId == projectId) ||
          db.assets.any (fun a => a.projectId == projectId) then
        .error .internalError
      else
        .ok { db with
          projects := db.projects.filter (fun p => p.id != projectId),
          steps := db.steps.filter (fun s => s.projectId != projectId),
          notifications := db.notifications.map (fun n =>
            if n.projectId == some projectId then { n with projectId := none }
            else n) }
    else .error .forbiddenNotOwner

/-- `POST /api/projects/(id)/forward`.  The current step's assignee marks
it `'Completed'` (stamping `completed_at := now`); if a lower-numbered
step exists the project moves there (that step `'In Progress'`, a
`'forward'` audit row, a notification to its assignee, status untouched),
otherwise the project becomes `'Completed'` with a null current step, a
`'complete'` audit row and a notification to the owner. -/
def forward_step (db : Db) (currentUserId : Nat) (projectId : Nat)
    (comments : String) (now : Nat) : Except WfError Db :=
  match projectById db projectId with
  | none => .error .notFoundProject
  | some project =>
    match get_current_step db project with
    | none => .error .invalidStateNoActiveStep
    | some currentStep =>
      if currentStep.assignedUserId = currentUserId then
        let db1 := updateStepById db currentStep.id
          (fun s => { s with status := "Completed", completedAt := some now })
        match get_next_step db1 project with
        | some nextStep =>
          let db2 := updateProjectById db1 projectId
            (fun p => { p with currentStepNumber := some nextStep.stepNumber })
          let db3 := updateStepById db2 nextStep.id
            (fun s => { s with status := "In Progress" })
          let db4 := log_action db3 projectId currentUserId "forward"
            (some currentStep.stepNumber) (some currentStep.id) (some comments)
          .ok (create_notification db4 nextStep.assignedUserId (some projectId)
            (forwardMessage project.projectName nextStep.stepNumber nextStep.stepName))
        | none =>
          let db2 := updateProjectById db1 projectId
            (fun p => { p with status := "Completed", currentStepNumber := none })
          let db3 := log_action db2 projectId currentUserId "complete"
            (some currentStep.stepNumber) (some currentStep.id) (some comments)
          .ok (create_notification db3 project.ownerId (some projectId)
            (completeMessage project.projectName))
      else .error .forbiddenNotAssigned

/-- `POST /api/projects/(id)/send-back`.  The current step's assignee,
with a mandatory non-empty comment (`comments = none` models a request
without a JSON body or without the key), marks the current step
`'Sent Back'` (its completion timestamp untouched), reactivates the least
step number strictly above it (`'In Progress'`, completion cleared),
moves `current_step_number` there, logs one `'send_back'` audit row
carrying the comment, and notifies that step's assignee with the comment
embedded. -/
def send_back_step (db : Db) (currentUserId : Nat) (projectId : Nat)
    (comments : Option String) : Except WfError Db :=
  match projectById db projectId with
  | none => .error .notFoundProject
  | some project =>
    match get_current_step db project with
    | none => .error .invalidStateNoActiveStep
    | some currentStep =>
      if currentStep.assignedUserId = currentUserId then
        match comments with
        | none => .error .validationCommentsRequired
        | some c =>
          if c = "" then .error .validationCommentsRequired
          else
            match get_previous_step db project with
            | none => .error .invalidStateNoPreviousStep
            | some previousStep =>
              let db1 := updateStepById db currentStep.id
                (fun s => { s with status := "Sent Back" })
              let db2 := updateProjectById db1 projectId
                (fun p => { p with currentStepNumber := some previousStep.stepNumber })
              let db3 := updateStepById db2 previousStep.id
                (fun s => { s with status := "In Progress", completedAt := none })
              let db4 := log_action db3 projectId currentUserId "send_back"
                (some currentStep.stepNumber) (some currentStep.id) (some c)
              .ok (create_notification db4 previousStep.assignedUserId (some projectId)
                (sendBackMessage project.projectName previousStep.stepNumber
                  previousStep.stepName c))
      else .error .forbiddenNotAssigned

/-- `GET /api/projects/(id)`: owner or any step assignee may read. -/
def get_project (db : Db) (currentUserId : Nat) (projectId : Nat) :
    Except WfError Project :=
  match projectById db projectId with
  | none => .error .notFoundProject
  | some project =>
    let isOwner := project.ownerId == currentUserId
    let isAssigned := (db.steps.find?
      (fun s => s.projectId == projectId && s.assignedUserId == currentUserId)).isSome
    if isOwner || isAssigned then .ok project
    else .error .forbiddenAccessDenied

/-- `GET /api/projects/(id)/actions`: the audit rows of the project.  The
source performs no access check here beyond authentication (rows are
returned newest-first by wall clock; insertion order here). -/
def get_project_actions (db : Db) (currentUserId : Nat) (projectId : Nat) :
    Except WfError (List WorkflowAction) :=
  match projectById db projectId with
  | none => .error .notFoundProject
  | some _ =>
    .ok (db.actions.filter (fun a => a.projectId == projectId))

/-- `GET /api/projects/(id)/assets`: the assets of the project.  As with
the actions route, the source performs no access check here. -/
def get_project_assets (db : Db) (currentUserId : Nat) (projectId : Nat) :
    Except WfError (List ProjectAsset) :=
  match projectById db projectId with
  | none => .error .notFoundProject
  | some _ =>
    .ok (db.assets.filter (fun a => a.projectId == projectId))

/-! ### Generic list lemmas used to reason about row updates

An ORM attribute assignment is modelled by mapping a function over a table
that rewrites the addressed row and fixes every other row; the lemmas
below push `find?` / `filter` through such maps. -/

theorem find?_map_pres {α : Type} (f : α → α) (q : α → Bool) (l : List α)
    (h : ∀ a, q (f a) = q a) : (l.map f).find? q = (l.find? q).map f := by
  induction l with
  | nil => rfl
  | cons a t ih =>
    cases hq : q a with
    | true =>
      rw [List.map_cons, List.find?_cons_of_pos _ (by rw [h a]; exact hq),
        List.find?_cons_of_pos _ hq, Option.map_some']
    | false =>
      rw [List.map_cons, List.find?_cons_of_neg _ (by rw [h a]; simp [hq]),
        List.find?_cons_of_neg _ (by simp [hq]), ih]

theorem filter_map_pres {α : Type} (f : α → α) (q : α → Bool) (l : List α)
    (h : ∀ a, q (f a) = q a) : (l.map f).filter q = (l.filter q).map f := by
  rw [List.filter_map]
  congr 1
  exact List.filter_congr (fun a _ => h a)

theorem find?_of_mem_nodupKey {α : Type} {κ : Type} [DecidableEq κ] (key : α → κ)
    {l : List α} (hnd : (l.map key).Nodup) {s : α} (hs : s ∈ l)
    {q : α → Bool} (hq : ∀ a, q a = (key a == key s)) : l.find? q = some s := by
  have hsome : (l.find? q).isSome := by
    rw [List.find?_isSome]
    exact ⟨s, hs, by rw [hq]; exact beq_self_eq_true _⟩
  obtain ⟨t, ht⟩ := Option.isSome_iff_exists.mp hsome
  have htmem : t ∈ l := List.mem_of_find?_eq_some ht
  have htq : q t = true := List.find?_some ht
  have hkey : key t = key s := by
    have := hq t ▸ htq
    exact eq_of_beq this
  have : t = s := List.inj_on_of_nodup_map hnd htmem hs hkey
  rw [ht, this]

/-! ### Specifications of the `ORDER BY step_number ... first()` helpers -/

theorem maxByStepNumber_eq_none {l : List ProjectStep} :
    maxByStepNumber l = none ↔ l = [] := by
  cases l with
  | nil => simp [maxByStepNumber]
  | cons a t =>
    simp only [maxByStepNumber]
    cases h : maxByStepNumber t <;> simp [h]
    split <;> simp

theorem maxByStepNumber_mem {l : List ProjectStep} {x : ProjectStep}
    (h : maxByStepNumber l = some x) : x ∈ l := by
  induction l with
  | nil => simp [maxByStepNumber] at h
  | cons a t ih =>
    simp only [maxByStepNumber] at h
    cases hm : maxByStepNumber t with
    | none => simp only [hm] at h; simp at h; simp [h]
    | some m =>
      simp only [hm] at h
      by_cases hlt : a.stepNumber < m.stepNumber
      · rw [if_pos hlt] at h
        simp at h
        subst h
        exact List.mem_cons_of_mem _ (ih hm)
      · rw [if_neg hlt] at h
        simp at h
        simp [h]

theorem maxByStepNumber_ge {l : List ProjectStep} :
    ∀ {x : ProjectStep}, maxByStepNumber l = some x →
      ∀ y ∈ l, y.stepNumber ≤ x.stepNumber := by
  induction l with
  | nil => intro x h; simp [maxByStepNumber] at h
  | cons a t ih =>
    intro x h y hy
    simp only [maxByStepNumber] at h
    cases hm : maxByStepNumber t with
    | none =>
      simp only [hm] at h
      simp at h
      have ht : t = [] := maxByStepNumber_eq_none.mp hm
      subst ht
      simp at hy
      simp [hy, h]
    | some m =>
      simp only [hm] at h
      rcases List.mem_cons.mp hy with hya | hyt
      · subst hya
        by_cases hlt : y.stepNumber < m.stepNumber
        · rw [if_pos hlt] at h
          simp at h
          subst h
          exact le_of_lt hlt
        · rw [if_neg hlt] at h
          simp at h
          simp [h]
      · by_cases hlt : a.stepNumber < m.stepNumber
        · rw [if_pos hlt] at h
          simp at h
          subst h
          exact ih hm y hyt
        · rw [if_neg hlt] at h
          simp at h
          subst h
          exact le_trans (ih hm y hyt) (not_lt.mp hlt)

theorem maxByStepNumber_first {l : List ProjectStep} {x : ProjectStep}
    (h : maxByStepNumber l = some x) :
    l.find? (fun s => s.stepNumber == x.stepNumber) = some x := by
  induction l with
  | nil => simp [maxByStepNumber] at h
  | cons a t ih =>
    simp only [maxByStepNumber] at h
    cases hm : maxByStepNumber t with
    | none =>
      simp only [hm] at h
      simp at h
      subst h
      exact List.find?_cons_of_pos _ (beq_self_eq_true _)
    | some m =>
      simp only [hm] at h
      by_cases hlt : a.stepNumber < m.stepNumber
      · rw [if_pos hlt] at h
        simp at h
        subst h
        rw [List.find?_cons_of_neg _ (by simp; exact ne_of_lt hlt), ih hm]
      · rw [if_neg hlt] at h
        simp at h
        subst h
        exact List.find?_cons_of_pos _ (beq_self_eq_true _)

theorem maxByStepNumber_map_pres {f : ProjectStep → ProjectStep}
    (hf : ∀ s, (f s).stepNumber = s.stepNumber) (l : List ProjectStep) :
    maxByStepNumber (l.map f) = (maxByStepNumber l).map f := by
  induction l with
  | nil => rfl
  | cons a t ih =>
    simp only [List.map_cons, maxByStepNumber, ih]
    cases hm : maxByStepNumber t with
    | none => rfl
    | some m =>
      simp only [Option.map_some']
      rw [hf a, hf m]
      split <;> rfl

theorem minByStepNumber_eq_none {l : List ProjectStep} :
    minByStepNumber l = none ↔ l = [] := by
  cases l with
  | nil => simp [minByStepNumber]
  | cons a t =>
    simp only [minByStepNumber]
    cases h : minByStepNumber t <;> simp [h]
    split <;> simp

theorem minByStepNumber_mem {l : List ProjectStep} {x : ProjectStep}
    (h : minByStepNumber l = some x) : x ∈ l := by
  induction l with
  | nil => simp [minByStepNumber] at h
  | cons a t ih =>
    simp only [minByStepNumber] at h
    cases hm : minByStepNumber t with
    | none => simp only [hm] at h; simp at h; simp [h]
    | some m =>
      simp only [hm] at h
      by_cases hlt : m.stepNumber < a.stepNumber
      · rw [if_pos hlt] at h
        simp at h
        subst h
        exact List.mem_cons_of_mem _ (ih hm)
      · rw [if_neg hlt] at h
        simp at h
        simp [h]

theorem minByStepNumber_le {l : List ProjectStep} :
    ∀ {x : ProjectStep}, minByStepNumber l = some x →
      ∀ y ∈ l, x.stepNumber ≤ y.stepNumber := by
  induction l with
  | nil => intro x h; simp [minByStepNumber] at h
  | cons a t ih =>
    intro x h y hy
    simp only [minByStepNumber] at h
    cases hm : minByStepNumber t with
    | none =>
      simp only [hm] at h
      simp at h
      have ht : t = [] := minByStepNumber_eq_none.mp hm
      subst ht
      simp at hy
      simp [hy, h]
    | some m =>
      simp only [hm] at h
      rcases List.mem_cons.mp hy with hya | hyt
      · subst hya
        by_cases hlt : m.stepNumber < y.stepNumber
        · rw [if_pos hlt] at h
          simp at h
          subst h
          exact le_of_lt hlt
        · rw [if_neg hlt] at h
          simp at h
          simp [h]
      · by_cases hlt : m.stepNumber < a.stepNumber
        · rw [if_pos hlt] at h
          simp at h
          subst h
          exact ih hm y hyt
        · rw [if_neg hlt] at h
          simp at h
          subst h
          exact le_trans (not_lt.mp hlt) (ih hm y hyt)

theorem minByStepNumber_first {l : List ProjectStep} {x : ProjectStep}
    (h : minByStepNumber l = some x) :
    l.find? (fun s => s.stepNumber == x.stepNumber) = some x := by
  induction l with
  | nil => simp [minByStepNumber] at h
  | cons a t ih =>
    simp only [minByStepNumber] at h
    cases hm : minByStepNumber t with
    | none =>
      simp only [hm] at h
      simp at h
      subst h
      exact List.find?_cons_of_pos _ (beq_self_eq_true _)
    | some m =>
      simp only [hm] at h
      by_cases hlt : m.stepNumber < a.stepNumber
      · rw [if_pos hlt] at h
        simp at h
        subst h
        rw [List.find?_cons_of_neg _ (by simp; exact (ne_of_lt hlt).symm), ih hm]
      · rw [if_neg hlt] at h
        simp at h
        subst h
        exact List.find?_cons_of_pos _ (beq_self_eq_true _)

theorem minByStepNumber_map_pres {f : ProjectStep → ProjectStep}
    (hf : ∀ s, (f s).stepNumber = s.stepNumber) (l : List ProjectStep) :
    minByStepNumber (l.map f) = (minByStepNumber l).map f := by
  induction l with
  | nil => rfl
  | cons a t ih =>
    simp only [List.map_cons, minByStepNumber, ih]
    cases hm : minByStepNumber t with
    | none => rfl
    | some m =>
      simp only [Option.map_some']
      rw [hf a, hf m]
      split <;> rfl

/-! ### Specification of `max([s.step_number for s in steps])` -/

theorem foldl_max_ge (xs : List StepInput) (a : Int) :
    a ≤ xs.foldl (fun m s => max m s.stepNumber) a ∧
    ∀ sd ∈ xs, sd.stepNumber ≤ xs.foldl (fun m s => max m s.stepNumber) a := by
  induction xs generalizing a with
  | nil => simp
  | cons x t ih =>
    obtain ⟨h1, h2⟩ := ih (max a x.stepNumber)
    refine ⟨le_trans (le_max_left _ _) h1, ?_⟩
    intro sd hsd
    rcases List.mem_cons.mp hsd with hx | ht
    · subst hx
      exact le_trans (le_max_right _ _) h1
    · exact h2 sd ht

theorem foldl_max_mem (xs : List StepInput) (a : Int) :
    xs.foldl (fun m s => max m s.stepNumber) a = a ∨
    ∃ sd ∈ xs, sd.stepNumber = xs.foldl (fun m s => max m s.stepNumber) a := by
  induction xs generalizing a with
  | nil => simp
  | cons x t ih =>
    simp only [List.foldl_cons]
    rcases ih (max a x.stepNumber) with h | ⟨sd, hsd, he⟩
    · rw [h]
      rcases max_choice a x.stepNumber with hm | hm
      · exact Or.inl hm
      · exact Or.inr ⟨x, List.mem_cons_self x t, hm.symm⟩
    · exact Or.inr ⟨sd, List.mem_cons_of_mem _ hsd, he⟩

theorem maxStepNumber_isSome {l : List StepInput} (h : l ≠ []) :
    ∃ m, maxStepNumber l = some m := by
  cases l with
  | nil => exact absurd rfl h
  | cons x xs => exact ⟨_, rfl⟩

theorem maxStepNumber_spec {l : List StepInput} {m : Int}
    (h : maxStepNumber l = some m) :
    (∃ sd ∈ l, sd.stepNumber = m) ∧ ∀ sd ∈ l, sd.stepNumber ≤ m := by
  cases l with
  | nil => simp [maxStepNumber] at h
  | cons x xs =>
    simp only [maxStepNumber, Option.some.injEq] at h
    subst h
    constructor
    · rcases foldl_max_mem xs x.stepNumber with he | ⟨sd, hsd, he⟩
      · exact ⟨x, List.mem_cons_self x xs, he.symm⟩
      · exact ⟨sd, List.mem_cons_of_mem _ hsd, he⟩
    · intro sd hsd
      rcases List.mem_cons.mp hsd with hx | ht
      · subst hx
        exact (foldl_max_ge xs sd.stepNumber).1
      · exact (foldl_max_ge xs x.stepNumber).2 sd ht

/-! ### Facts about the bulk-created step rows -/

theorem stepsFromInputs_props {pid b : Nat} {l : List StepInput} :
    ∀ s ∈ stepsFromInputs pid b l,
      s.projectId = pid ∧ s.status = "Pending" ∧ s.completedAt = none ∧
      b ≤ s.id ∧ s.id < b + l.length := by
  induction l generalizing b with
  | nil => simp [stepsFromInputs]
  | cons sd rest ih =>
    intro s hs
    rcases List.mem_cons.mp hs with hh | ht
    · subst hh
      refine ⟨rfl, rfl, rfl, le_refl _, ?_⟩
      simp only [List.length_cons]
      omega
    · obtain ⟨h1, h2, h3, h4, h5⟩ := ih s ht
      refine ⟨h1, h2, h3, by omega, ?_⟩
      simp only [List.length_cons]
      omega

theorem stepsFromInputs_map_id {pid b : Nat} {l : List StepInput} :
    (stepsFromInputs pid b l).map (fun s => s.id) = List.range' b l.length := by
  induction l generalizing b with
  | nil => rfl
  | cons sd rest ih =>
    simp only [stepsFromInputs, List.map_cons, List.length_cons, List.range'_succ, ih]

theorem stepsFromInputs_map_num {pid b : Nat} {l : List StepInput} :
    (stepsFromInputs pid b l).map (fun s => s.stepNumber) =
      l.map (fun sd => sd.stepNumber) := by
  induction l generalizing b with
  | nil => rfl
  | cons sd rest ih => simp only [stepsFromInputs, List.map_cons, ih]

theorem stepsFromInputs_fields {pid b : Nat} {l : List StepInput} :
    (stepsFromInputs pid b l).map
        (fun s => (s.stepNumber, s.stepName, s.taskDescription, s.assignedUserId)) =
      l.map (fun sd => (sd.stepNumber, sd.stepName, sd.taskDescription, sd.assignedUserId)) := by
  induction l generalizing b with
  | nil => rfl
  | cons sd rest ih => simp only [stepsFromInputs, List.map_cons, ih]

theorem stepsFromInputs_exists_num {pid b : Nat} {l : List StepInput} {m : Int}
    (h : ∃ sd ∈ l, sd.stepNumber = m) :
    ∃ s ∈ stepsFromInputs pid b l, s.stepNumber = m := by
  obtain ⟨sd, hsd, he⟩ := h
  have : sd.stepNumber ∈ (stepsFromInputs pid b l).map (fun s => s.stepNumber) := by
    rw [stepsFromInputs_map_num]
    exact List.mem_map_of_mem _ hsd
  obtain ⟨s, hs, hnum⟩ := List.mem_map.mp this
  exact ⟨s, hs, hnum.trans he⟩

/-! ### Row updates seen through the query helpers -/

theorem projectById_updateProject (db : Db) (pid x : Nat) (f : Project → Project)
    (hf : ∀ p, (f p).id = p.id) :
    projectById (updateProjectById db pid f) x =
      (projectById db x).map (fun p => if p.id == pid then f p else p) := by
  unfold projectById updateProjectById
  exact find?_map_pres _ _ _ (fun a => by by_cases h : a.id == pid <;> simp [h, hf])

theorem stepById_updateStep (db : Db) (sid x : Nat) (f : ProjectStep → ProjectStep)
    (hf : ∀ s, (f s).id = s.id) :
    stepById (updateStepById db sid f) x =
      (stepById db x).map (fun s => if s.id == sid then f s else s) := by
  unfold stepById updateStepById
  exact find?_map_pres _ _ _ (fun a => by by_cases h : a.id == sid <;> simp [h, hf])

theorem stepsOf_updateStep (db : Db) (pid sid : Nat) (f : ProjectStep → ProjectStep)
    (hf : ∀ s, (f s).projectId = s.projectId) :
    stepsOf (updateStepById db sid f) pid =
      (stepsOf db pid).map (fun s => if s.id == sid then f s else s) := by
  unfold stepsOf updateStepById
  exact filter_map_pres _ _ _ (fun a => by by_cases h : a.id == sid <;> simp [h, hf])

theorem findNum_updateStep (db : Db) (pid sid : Nat) (n : Int)
    (f : ProjectStep → ProjectStep)
    (hf : ∀ s, (f s).projectId = s.projectId ∧ (f s).stepNumber = s.stepNumber) :
    (updateStepById db sid f).steps.find?
        (fun t => t.projectId == pid && t.stepNumber == n) =
      (db.steps.find? (fun t => t.projectId == pid && t.stepNumber == n)).map
        (fun s => if s.id == sid then f s else s) := by
  unfold updateStepById
  exact find?_map_pres _ _ _
    (fun a => by by_cases h : a.id == sid <;> simp [h, (hf a).1, (hf a).2])

theorem get_next_step_updateStep (db : Db) (sid : Nat) (p : Project)
    (f : ProjectStep → ProjectStep)
    (hf : ∀ s, (f s).projectId = s.projectId ∧ (f s).stepNumber = s.stepNumber) :
    get_next_step (updateStepById db sid f) p =
      (get_next_step db p).map (fun s => if s.id == sid then f s else s) := by
  unfold get_next_step updateStepById
  cases hc : p.currentStepNumber with
  | none => rfl
  | some n =>
    by_cases hz : n = 0
    · simp [hz]
    · simp only [if_neg hz]
      rw [filter_map_pres _ _ _
          (fun a => by by_cases h : a.id == sid <;> simp [h, (hf a).1]),
        filter_map_pres _ _ _
          (fun a => by by_cases h : a.id == sid <;> simp [h, (hf a).2]),
        maxByStepNumber_map_pres
          (fun s => by by_cases h : s.id == sid <;> simp [h, (hf s).2])]

theorem get_previous_step_updateStep (db : Db) (sid : Nat) (p : Project)
    (f : ProjectStep → ProjectStep)
    (hf : ∀ s, (f s).projectId = s.projectId ∧ (f s).stepNumber = s.stepNumber) :
    get_previous_step (updateStepById db sid f) p =
      (get_previous_step db p).map (fun s => if s.id == sid then f s else s) := by
  unfold get_previous_step updateStepById
  cases hc : p.currentStepNumber with
  | none => rfl
  | some n =>
    by_cases hz : n = 0
    · simp [hz]
    · simp only [if_neg hz]
      rw [filter_map_pres _ _ _
          (fun a => by by_cases h : a.id == sid <;> simp [h, (hf a).1]),
        filter_map_pres _ _ _
          (fun a => by by_cases h : a.id == sid <;> simp [h, (hf a).2]),
        minByStepNumber_map_pres
          (fun s => by by_cases h : s.id == sid <;> simp [h, (hf s).2])]

/-! ### The spec's per-project invariant and the inductive strengthening -/

/-- The invariant of spec section 3 / claim C1: `current_step_number` is
null iff the project status is `'Completed'`; at most one of the
project's steps is `'In Progress'`; and a non-null current step number is
the number of an `'In Progress'` step. -/
def ClaimInv (db : Db) (p : Project) : Prop :=
  (p.currentStepNumber = none ↔ p.status = "Completed") ∧
  (∀ s ∈ stepsOf db p.id, ∀ t ∈ stepsOf db p.id,
     s.status = "In Progress" → t.status = "In Progress" → s = t) ∧
  (∀ n, p.currentStepNumber = some n →
     ∃ s ∈ stepsOf db p.id, s.status = "In Progress" ∧ s.stepNumber = n)

/-- Strengthening needed for preservation: when the current step number is
non-null, the first-inserted row carrying that number (the row every
`filter_by(...).first()` query of the source returns) is the `'In Progress'`
one.  All reachable states keep this alignment because creation, forward
and send-back always activate exactly the row those queries select. -/
def AlignedCurrent (db : Db) (p : Project) : Prop :=
  ∀ n, p.currentStepNumber = some n →
    ∃ s, db.steps.find? (fun t => t.projectId == p.id && t.stepNumber == n) = some s ∧
      s.status = "In Progress"

def StrongInv (db : Db) (p : Project) : Prop := ClaimInv db p ∧ AlignedCurrent db p

/-- Store well-formedness: step primary keys are distinct and below the
autoincrement counter, and project foreign keys / primary keys are below
the project counter.  Every store built by the operations from an empty
store satisfies this. -/
def WfIds (db : Db) : Prop :=
  (db.steps.map (fun s => s.id)).Nodup ∧
  (∀ s ∈ db.steps, s.id < db.nextStepId) ∧
  (∀ s ∈ db.steps, s.projectId < db.nextProjectId) ∧
  (∀ p ∈ db.projects, p.id < db.nextProjectId)

/-- Executable form of `ClaimInv` (the quantifier over the step number is
replaced by a match), used to evaluate the invariant on concrete stores. -/
def claimInvB (db : Db) (p : Project) : Bool :=
  decide (p.currentStepNumber = none ↔ p.status = "Completed") &&
  decide (∀ s ∈ stepsOf db p.id, ∀ t ∈ stepsOf db p.id,
    s.status = "In Progress" → t.status = "In Progress" → s = t) &&
  (match p.currentStepNumber with
   | none => true
   | some n =>
     decide (∃ s ∈ stepsOf db p.id, s.status = "In Progress" ∧ s.stepNumber = n))

/-- Executable form of `AlignedCurrent`. -/
def alignedB (db : Db) (p : Project) : Bool :=
  match p.currentStepNumber with
  | none => true
  | some n =>
    match db.steps.find? (fun t => t.projectId == p.id && t.stepNumber == n) with
    | some s => decide (s.status = "In Progress")
    | none => false

/-- Executable form of `WfIds`. -/
def wfIdsB (db : Db) : Bool :=
  decide ((db.steps.map (fun s => s.id)).Nodup) &&
  decide (∀ s ∈ db.steps, s.id < db.nextStepId) &&
  decide (∀ s ∈ db.steps, s.projectId < db.nextProjectId) &&
  decide (∀ p ∈ db.projects, p.id < db.nextProjectId)

theorem claimInvB_iff (db : Db) (p : Project) : claimInvB db p = true ↔ ClaimInv db p := by
  unfold claimInvB ClaimInv
  cases hc : p.currentStepNumber with
  | none => simp [hc]
  | some n => simp [hc]; tauto

theorem alignedB_iff (db : Db) (p : Project) : alignedB db p = true ↔ AlignedCurrent db p := by
  unfold alignedB AlignedCurrent
  cases hc : p.currentStepNumber with
  | none => simp [hc]
  | some n =>
    cases hf : db.steps.find? (fun t => t.projectId == p.id && t.stepNumber == n) with
    | none => simp [hc, hf]
    | some s => simp [hc, hf]

theorem strongInv_of_B {db : Db} {p : Project}
    (h1 : claimInvB db p = true) (h2 : alignedB db p = true) : StrongInv db p :=
  ⟨(claimInvB_iff db p).mp h1, (alignedB_iff db p).mp h2⟩

theorem wfIdsB_iff (db : Db) : wfIdsB db = true ↔ WfIds db := by
  unfold wfIdsB WfIds
  simp
  tauto

/-! ### More query lemmas -/

theorem find?_filter_comm {α : Type} (l : List α) (p q : α → Bool) :
    (l.filter q).find? p = l.find? (fun a => q a && p a) := by
  induction l with
  | nil => rfl
  | cons a t ih =>
    by_cases hq : q a = true
    · rw [List.filter_cons_of_pos hq]
      by_cases hp : p a = true
      · rw [List.find?_cons_of_pos _ hp, List.find?_cons_of_pos _ (by simp [hq, hp])]
      · rw [List.find?_cons_of_neg _ (by simp [hp]),
          List.find?_cons_of_neg _ (by simp [hp]), ih]
    · rw [List.filter_cons_of_neg (by simp [hq]),
        List.find?_cons_of_neg _ (by simp [hq]), ih]

theorem ne_id_of_ne {l : List ProjectStep} (hnd : (l.map (fun s => s.id)).Nodup)
    {a b : ProjectStep} (ha : a ∈ l) (hb : b ∈ l) (hne : a ≠ b) : a.id ≠ b.id :=
  fun h => hne (List.inj_on_of_nodup_map hnd ha hb h)

/-- What a successful `get_current_step` lookup says about the store. -/
theorem get_current_step_spec {db : Db} {p : Project} {cs : ProjectStep}
    (h : get_current_step db p = some cs) :
    p.currentStepNumber = some cs.stepNumber ∧ cs.stepNumber ≠ 0 ∧
    cs ∈ db.steps ∧ cs.projectId = p.id ∧
    db.steps.find? (fun s => s.projectId == p.id && s.stepNumber == cs.stepNumber) =
      some cs := by
  unfold get_current_step at h
  cases hc : p.currentStepNumber with
  | none => simp only [hc] at h; cases h
  | some n =>
    simp only [hc] at h
    by_cases hz : n = 0
    · rw [if_pos hz] at h; cases h
    · rw [if_neg hz] at h
      have hmem := List.mem_of_find?_eq_some h
      have hpred := List.find?_some h
      simp only [Bool.and_eq_true, beq_iff_eq] at hpred
      obtain ⟨hp, hn⟩ := hpred
      subst hn
      exact ⟨rfl, hz, hmem, hp, h⟩

/-- What a successful `get_next_step` lookup says: the found row belongs
to the project, is strictly below the current number, is greatest among
such rows, and is the first-inserted row carrying its number. -/
theorem get_next_step_spec {db : Db} {p : Project} {ns : ProjectStep}
    (h : get_next_step db p = some ns) :
    ∃ n, p.currentStepNumber = some n ∧ n ≠ 0 ∧ ns ∈ db.steps ∧
      ns.projectId = p.id ∧ ns.stepNumber < n ∧
      (∀ y ∈ stepsOf db p.id, y.stepNumber < n → y.stepNumber ≤ ns.stepNumber) ∧
      db.steps.find? (fun t => t.projectId == p.id && t.stepNumber == ns.stepNumber) =
        some ns := by
  unfold get_next_step at h
  cases hc : p.currentStepNumber with
  | none => simp only [hc] at h; cases h
  | some n =>
    simp only [hc] at h
    by_cases hz : n = 0
    · rw [if_pos hz] at h; cases h
    · rw [if_neg hz] at h
      have hmemf := maxByStepNumber_mem h
      have hge := maxByStepNumber_ge h
      have hfirst := maxByStepNumber_first h
      rw [List.mem_filter] at hmemf
      obtain ⟨hmem1, hlt⟩ := hmemf
      rw [List.mem_filter] at hmem1
      obtain ⟨hmem, hpid⟩ := hmem1
      simp only [decide_eq_true_eq] at hlt
      refine ⟨n, rfl, hz, hmem, by simpa using hpid, hlt, ?_, ?_⟩
      · intro y hy hylt
        refine hge y ?_
        rw [List.mem_filter]
        exact ⟨hy, decide_eq_true hylt⟩
      · rw [find?_filter_comm, find?_filter_comm] at hfirst
        rw [show (fun t : ProjectStep => t.projectId == p.id && t.stepNumber == ns.stepNumber) =
            (fun a : ProjectStep => (a.projectId == p.id) &&
              (decide (a.stepNumber < n) && (a.stepNumber == ns.stepNumber))) from ?_]
        · exact hfirst
        · funext a
          cases hbe : (a.stepNumber == ns.stepNumber) with
          | false => simp [hbe]
          | true =>
            have hx : a.stepNumber = ns.stepNumber := by simpa using hbe
            simp [hbe, decide_eq_true (show a.stepNumber < n from hx.symm ▸ hlt)]

/-- What a successful `get_previous_step` lookup says. -/
theorem get_previous_step_spec {db : Db} {p : Project} {ps : ProjectStep}
    (h : get_previous_step db p = some ps) :
    ∃ n, p.currentStepNumber = some n ∧ n ≠ 0 ∧ ps ∈ db.steps ∧
      ps.projectId = p.id ∧ n < ps.stepNumber ∧
      (∀ y ∈ stepsOf db p.id, n < y.stepNumber → ps.stepNumber ≤ y.stepNumber) ∧
      db.steps.find? (fun t => t.projectId == p.id && t.stepNumber == ps.stepNumber) =
        some ps := by
  unfold get_previous_step at h
  cases hc : p.currentStepNumber with
  | none => simp only [hc] at h; cases h
  | some n =>
    simp only [hc] at h
    by_cases hz : n = 0
    · rw [if_pos hz] at h; cases h
    · rw [if_neg hz] at h
      have hmemf := minByStepNumber_mem h
      have hle := minByStepNumber_le h
      have hfirst := minByStepNumber_first h
      rw [List.mem_filter] at hmemf
      obtain ⟨hmem1, hlt⟩ := hmemf
      rw [List.mem_filter] at hmem1
      obtain ⟨hmem, hpid⟩ := hmem1
      simp only [decide_eq_true_eq] at hlt
      refine ⟨n, rfl, hz, hmem, by simpa using hpid, hlt, ?_, ?_⟩
      · intro y hy hylt
        refine hle y ?_
        rw [List.mem_filter]
        exact ⟨hy, decide_eq_true hylt⟩
      · rw [find?_filter_comm, find?_filter_comm] at hfirst
        rw [show (fun t : ProjectStep => t.projectId == p.id && t.stepNumber == ps.stepNumber) =
            (fun a : ProjectStep => (a.projectId == p.id) &&
              (decide (n < a.stepNumber) && (a.stepNumber == ps.stepNumber))) from ?_]
        · exact hfirst
        · funext a
          cases hbe : (a.stepNumber == ps.stepNumber) with
          | false => simp [hbe]
          | true =>
            have hx : a.stepNumber = ps.stepNumber := by simpa using hbe
            simp [hbe, decide_eq_true (show n < a.stepNumber from hx.symm ▸ hlt)]

/-! ### Frame lemmas: which tables each primitive touches -/

@[simp] theorem projectById_log_action (db : Db) (a b : Nat) (c : String)
    (d : Option Int) (e : Option Nat) (f : Option String) (x : Nat) :
    projectById (log_action db a b c d e f) x = projectById db x := rfl

@[simp] theorem projectById_create_notification (db : Db) (a : Nat) (b : Option Nat)
    (m : String) (x : Nat) :
    projectById (create_notification db a b m) x = projectById db x := rfl

@[simp] theorem projectById_updateStep (db : Db) (sid : Nat)
    (f : ProjectStep → ProjectStep) (x : Nat) :
    projectById (updateStepById db sid f) x = projectById db x := rfl

@[simp] theorem stepsOf_log_action (db : Db) (a b : Nat) (c : String)
    (d : Option Int) (e : Option Nat) (f : Option String) (x : Nat) :
    stepsOf (log_action db a b c d e f) x = stepsOf db x := rfl

@[simp] theorem stepsOf_create_notification (db : Db) (a : Nat) (b : Option Nat)
    (m : String) (x : Nat) :
    stepsOf (create_notification db a b m) x = stepsOf db x := rfl

@[simp] theorem stepsOf_updateProject (db : Db) (pid : Nat)
    (f : Project → Project) (x : Nat) :
    stepsOf (updateProjectById db pid f) x = stepsOf db x := rfl

@[simp] theorem steps_log_action (db : Db) (a b : Nat) (c : String)
    (d : Option Int) (e : Option Nat) (f : Option String) :
    (log_action db a b c d e f).steps = db.steps := rfl

@[simp] theorem steps_create_notification (db : Db) (a : Nat) (b : Option Nat)
    (m : String) : (create_notification db a b m).steps = db.steps := rfl

@[simp] theorem steps_updateProject (db : Db) (pid : Nat) (f : Project → Project) :
    (updateProjectById db pid f).steps = db.steps := rfl

@[simp] theorem actions_create_notification (db : Db) (a : Nat) (b : Option Nat)
    (m : String) : (create_notification db a b m).actions = db.actions := rfl

@[simp] theorem actions_updateStep (db : Db) (sid : Nat)
    (f : ProjectStep → ProjectStep) : (updateStepById db sid f).actions = db.actions := rfl

@[simp] theorem actions_updateProject (db : Db) (pid : Nat) (f : Project → Project) :
    (updateProjectById db pid f).actions = db.actions := rfl

@[simp] theorem actions_insertSteps (db : Db) (pid : Nat) (l : List StepInput) :
    (insertSteps db pid l).actions = db.actions := rfl

@[simp] theorem notifications_log_action (db : Db) (a b : Nat) (c : String)
    (d : Option Int) (e : Option Nat) (f : Option String) :
    (log_action db a b c d e f).notifications = db.notifications := rfl

@[simp] theorem notifications_updateStep (db : Db) (sid : Nat)
    (f : ProjectStep → ProjectStep) :
    (updateStepById db sid f).notifications = db.notifications := rfl

@[simp] theorem notifications_updateProject (db : Db) (pid : Nat)
    (f : Project → Project) :
    (updateProjectById db pid f).notifications = db.notifications := rfl

@[simp] theorem notifications_insertSteps (db : Db) (pid : Nat) (l : List StepInput) :
    (insertSteps db pid l).notifications = db.notifications := rfl

@[simp] theorem actions_log_action (db : Db) (a b : Nat) (c : String)
    (d : Option Int) (e : Option Nat) (f : Option String) :
    (log_action db a b c d e f).actions = db.actions ++
      [{ id := db.nextActionId, projectId := a, stepId := e, userId := b,
         action := c, stepNumber := d, comments := f }] := rfl

@[simp] theorem notifications_create_notification (db : Db) (a : Nat) (b : Option Nat)
    (m : String) :
    (create_notification db a b m).notifications = db.notifications ++
      [{ id := db.nextNotificationId, userId := a, projectId := b,
         message := m, isRead := false }] := rfl

/-! ### Small bridging lemmas -/

theorem projectById_id {db : Db} {pid : Nat} {p : Project}
    (h : projectById db pid = some p) : p.id = pid := by
  unfold projectById at h
  have := List.find?_some h
  simpa using this

theorem assigned_isSome_iff (db : Db) (pid uid : Nat) :
    (db.steps.find? (fun s => s.projectId == pid && s.assignedUserId == uid)).isSome ↔
    ∃ s ∈ stepsOf db pid, s.assignedUserId = uid := by
  rw [List.find?_isSome]
  constructor
  · rintro ⟨s, hs, hpred⟩
    simp only [Bool.and_eq_true, beq_iff_eq] at hpred
    refine ⟨s, ?_, hpred.2⟩
    rw [stepsOf, List.mem_filter]
    exact ⟨hs, by simp [hpred.1]⟩
  · rintro ⟨s, hs, ha⟩
    rw [stepsOf, List.mem_filter] at hs
    refine ⟨s, hs.1, ?_⟩
    simp only [Bool.and_eq_true, beq_iff_eq]
    exact ⟨by simpa using hs.2, ha⟩

theorem get_previous_step_none_of_max {db : Db} {p : Project} {cs : ProjectStep}
    (hcs : get_current_step db p = some cs)
    (hmax : ∀ s ∈ stepsOf db p.id, s.stepNumber ≤ cs.stepNumber) :
    get_previous_step db p = none := by
  obtain ⟨hc, hz, _, _, _⟩ := get_current_step_spec hcs
  unfold get_previous_step
  simp only [hc]
  rw [if_neg hz]
  have hnil : ((db.steps.filter (fun s => s.projectId == p.id)).filter
      (fun s => decide (cs.stepNumber < s.stepNumber))) = [] := by
    rw [List.filter_eq_nil_iff]
    intro a ha
    have hle := hmax a ha
    simp only [decide_eq_true_eq]
    exact not_lt.mpr hle
  rw [hnil]
  rfl

/-- A concrete store with the five sample users of `init_db` (ids 1..5)
and no other rows; the concrete scenarios below all grow out of it. -/
def baseDb : Db :=
  { users := [⟨1, true⟩, ⟨2, true⟩, ⟨3, true⟩, ⟨4, true⟩, ⟨5, true⟩],
    projects := [], steps := [], actions := [], assets := [], notifications := [],
    nextProjectId := 1, nextStepId := 1, nextActionId := 1, nextNotificationId := 1 }

/-- Unwraps a successful operation result, with a fallback store. -/
def okD (r : Except WfError Db) (d : Db) : Db :=
  match r with
  | .ok x => x
  | .error _ => d

/-- Whether an operation succeeded. -/
def isOkB {α : Type} (r : Except WfError α) : Bool :=
  match r with
  | .ok _ => true
  | .error _ => false

/-- The spec's section 8 scenario: project P with steps
(3, Draft, user 2), (2, Review, user 3), (1, Publish, user 4),
owned by user 1. -/
def scenarioInput : CreateProjectInput :=
  { projectName := "P", description := "d",
    steps := [⟨3, "Draft", "t", 2⟩, ⟨2, "Review", "t", 3⟩, ⟨1, "Publish", "t", 4⟩] }

def s1 : Db := okD (create_project baseDb 1 scenarioInput) baseDb

/-- The project row of `s1`. -/
def s1proj : Project :=
  { id := 1, projectName := "P", description := "d", ownerId := 1,
    status := "In Progress", currentStepNumber := some 3 }

/-- The active step row of `s1` (step 3, assigned to user 2). -/
def s1step3 : ProjectStep :=
  { id := 1, projectId := 1, stepNumber := 3, stepName := "Draft",
    taskDescription := "t", assignedUserId := 2, status := "In Progress",
    completedAt := none }

/-! ### Claims -/

/-- C10: for every project whose `current_step_number` equals `0`, both
Forward and SendBack fail with the no-active-step error for every caller
and comment, even though the step numbered 0 has status In Progress — the
current-step lookup treats step number 0 the same as null (Python
falsiness), so such a project can never be completed or sent back. -/
theorem c10_step_zero (db : Db) (pid : Nat) (p : Project) (uid : Nat)
    (c : String) (c2 : Option String) (now : Nat)
    (hp : projectById db pid = some p)
    (hc : p.currentStepNumber = some 0)
    (hstep : ∃ s ∈ stepsOf db pid, s.stepNumber = 0 ∧ s.status = "In Progress") :
    forward_step db uid pid c now = .error .invalidStateNoActiveStep ∧
    send_back_step db uid pid c2 = .error .invalidStateNoActiveStep := by
  have hcur : get_current_step db p = none := by
    unfold get_current_step
    simp [hc]
  constructor
  · unfold forward_step
    simp [hp, hcur]
  · unfold send_back_step
    simp [hp, hcur]

/-- Scenario reaching a current step number of 0: a project with steps
1 (user 2) and 0 (user 3); user 2 forwards, making step 0 current. -/
def c10input : CreateProjectInput :=
  { projectName := "Z", description := "d",
    steps := [⟨1, "A", "t", 2⟩, ⟨0, "B", "t", 3⟩] }

def c10db : Db :=
  okD (forward_step (okD (create_project baseDb 1 c10input) baseDb) 2 1 "" 5)
    (okD (create_project baseDb 1 c10input) baseDb)

def c10proj : Project :=
  { id := 1, projectName := "Z", description := "d", ownerId := 1,
    status := "In Progress", currentStepNumber := some 0 }

theorem c10_step_zero_witness :
    forward_step c10db 3 1 "go" 6 = .error .invalidStateNoActiveStep ∧
    send_back_step c10db 3 1 (some "back") = .error .invalidStateNoActiveStep :=
  c10_step_zero c10db 1 c10proj 3 "go" (some "back") 6 (by decide) (by decide)
    (by decide)

/-- C6: with an active current step, Forward and SendBack by a caller who
is not the step's assignee fail with the 403 forbidden error; SendBack by
the assignee with a missing or empty comment fails with the 400
comments-required validation error; SendBack by the assignee when the
current step is the maximum-numbered step fails with the 400
no-previous-step error.  In the source each of these returns before any
row is touched or committed, and correspondingly the embedded operation
yields only an error, leaving the store unchanged. -/
theorem c6_guards (db : Db) (pid : Nat) (p : Project) (cs : ProjectStep)
    (uid : Nat) (c : String) (now : Nat) (c2 : Option String) (m : String)
    (hp : projectById db pid = some p)
    (hcs : get_current_step db p = some cs) :
    (uid ≠ cs.assignedUserId →
      forward_step db uid pid c now = .error .forbiddenNotAssigned ∧
      send_back_step db uid pid c2 = .error .forbiddenNotAssigned) ∧
    (uid = cs.assignedUserId → c2 = none ∨ c2 = some "" →
      send_back_step db uid pid c2 = .error .validationCommentsRequired) ∧
    (uid = cs.assignedUserId → c2 = some m → m ≠ "" →
      (∀ s ∈ stepsOf db p.id, s.stepNumber ≤ cs.stepNumber) →
      send_back_step db uid pid c2 = .error .invalidStateNoPreviousStep) := by
  refine ⟨?_, ?_, ?_⟩
  · intro hne
    constructor
    · unfold forward_step
      simp only [hp, hcs]
      rw [if_neg (fun h => hne h.symm)]
    · unfold send_back_step
      simp only [hp, hcs]
      rw [if_neg (fun h => hne h.symm)]
  · intro he hc2
    unfold send_back_step
    simp only [hp, hcs]
    rw [if_pos he.symm]
    rcases hc2 with h | h <;> simp [h]
  · intro he hc2 hm hmax
    have hprev := get_previous_step_none_of_max hcs hmax
    unfold send_back_step
    simp only [hp, hcs, hprev]
    rw [if_pos he.symm]
    simp [hc2, hm]

theorem c6_guards_witness :
    (forward_step s1 5 1 "" 7 = .error .forbiddenNotAssigned ∧
      send_back_step s1 5 1 (some "x") = .error .forbiddenNotAssigned) ∧
    send_back_step s1 2 1 none = .error .validationCommentsRequired ∧
    send_back_step s1 2 1 (some "x") = .error .invalidStateNoPreviousStep := by
  refine ⟨(c6_guards s1 1 s1proj s1step3 5 "" 7 (some "x") "x" (by decide)
      (by decide)).1 (by decide), ?_, ?_⟩
  · exact (c6_guards s1 1 s1proj s1step3 2 "" 7 none "x" (by decide)
      (by decide)).2.1 (by decide) (Or.inl rfl)
  · exact (c6_guards s1 1 s1proj s1step3 2 "" 7 (some "x") "x" (by decide)
      (by decide)).2.2 (by decide) rfl (by decide) (by decide)

/-- C5 (amended): CreateProject fails with the empty-steps validation
error when the steps list is empty, and with the user-not-found error
when some step's assignee does not exist (the first such step in list
order), in both cases before any row is created — the embedded operation
returns only the error.  Duplicate step numbers are NOT rejected: any
request whose steps list is non-empty and whose assignees all exist
succeeds, duplicates included. -/
theorem c5_create_validation_amended (db : Db) (uid : Nat)
    (data : CreateProjectInput) :
    (data.steps = [] → create_project db uid data = .error .validationEmptySteps) ∧
    (∀ sd, data.steps.find? (fun sd => (userById db sd.assignedUserId).isNone) = some sd →
      create_project db uid data = .error (.notFoundUser sd.assignedUserId)) ∧
    (data.steps ≠ [] →
      (∀ sd ∈ data.steps, (userById db sd.assignedUserId).isSome) →
      ∃ db', create_project db uid data = .ok db') := by
  refine ⟨?_, ?_, ?_⟩
  · intro he
    unfold create_project create_project_commits
    simp [he]
    rfl
  · intro sd hfind
    have hne : data.steps ≠ [] := by
      intro he
      rw [he] at hfind
      cases hfind
    unfold create_project create_project_commits
    rw [if_neg (by simpa using hne), hfind]
    rfl
  · intro hne hall
    have hfind : data.steps.find?
        (fun sd => (userById db sd.assignedUserId).isNone) = none := by
      rw [List.find?_eq_none]
      intro sd hsd
      simp only [Bool.not_eq_true, Option.isNone_eq_false_iff]
      exact hall sd hsd
    obtain ⟨m, hm⟩ := maxStepNumber_isSome hne
    unfold create_project create_project_commits
    rw [if_neg (by simpa using hne)]
    simp only [hfind, hm]
    split
    · exact ⟨_, rfl⟩
    · exact ⟨_, rfl⟩

/-- Duplicate step numbers: the operation succeeds and creates both rows,
contradicting the claim that it fails with a validation error. -/
def c5dup : CreateProjectInput :=
  { projectName := "D", description := "d",
    steps := [⟨1, "A", "t", 2⟩, ⟨1, "B", "t", 3⟩] }

theorem c5_create_validation_counterexample :
    isOkB (create_project baseDb 1 c5dup) = true ∧
    (okD (create_project baseDb 1 c5dup) baseDb).steps.length = 2 := by
  constructor <;> rfl

def c5emptyInput : CreateProjectInput :=
  { projectName := "E", description := "d", steps := [] }

def c5missingUserInput : CreateProjectInput :=
  { projectName := "U", description := "d", steps := [⟨1, "A", "t", 9⟩] }

theorem c5_create_validation_witness :
    create_project baseDb 1 c5emptyInput = .error .validationEmptySteps ∧
    create_project baseDb 1 c5missingUserInput = .error (.notFoundUser 9) ∧
    ∃ db', create_project baseDb 1 scenarioInput = .ok db' := by
  refine ⟨(c5_create_validation_amended baseDb 1 c5emptyInput).1 rfl, ?_, ?_⟩
  · exact (c5_create_validation_amended baseDb 1 c5missingUserInput).2.1
      ⟨1, "A", "t", 9⟩ (by decide)
  · exact (c5_create_validation_amended baseDb 1 scenarioInput).2.2 (by decide)
      (by decide)

/-- C9 (amended): reading a project's details requires the caller to be
the owner or assigned to some step (403 otherwise), but the actions
(audit) and assets read routes only require the project to exist: any
authenticated user can read them — the source has no access check there. -/
theorem c9_read_access_amended (db : Db) (uid pid : Nat) (p : Project)
    (hp : projectById db pid = some p) :
    (p.ownerId = uid ∨ (∃ s ∈ stepsOf db pid, s.assignedUserId = uid) →
      get_project db uid pid = .ok p) ∧
    (p.ownerId ≠ uid → (∀ s ∈ stepsOf db pid, s.assignedUserId ≠ uid) →
      get_project db uid pid = .error .forbiddenAccessDenied) ∧
    get_project_actions db uid pid =
      .ok (db.actions.filter (fun a => a.projectId == pid)) ∧
    get_project_assets db uid pid =
      .ok (db.assets.filter (fun a => a.projectId == pid)) := by
  refine ⟨?_, ?_, ?_, ?_⟩
  · intro hacc
    unfold get_project
    simp only [hp]
    have hcond : (p.ownerId == uid ||
        (db.steps.find? (fun s => s.projectId == pid &&
          s.assignedUserId == uid)).isSome) = true := by
      rcases hacc with ho | ⟨s, hs, ha⟩
      · simp [ho]
      · simp only [Bool.or_eq_true]
        exact Or.inr ((assigned_isSome_iff db pid uid).mpr ⟨s, hs, ha⟩)
    rw [if_pos hcond]
  · intro hno hnone
    unfold get_project
    simp only [hp]
    have hcond : ¬ (p.ownerId == uid ||
        (db.steps.find? (fun s => s.projectId == pid &&
          s.assignedUserId == uid)).isSome) = true := by
      simp only [Bool.or_eq_true, beq_iff_eq]
      rintro (ho | hsome)
      · exact hno ho
      · obtain ⟨s, hs, ha⟩ := (assigned_isSome_iff db pid uid).mp hsome
        exact hnone s hs ha
    rw [if_neg hcond]
  · unfold get_project_actions
    simp only [hp]
  · unfold get_project_assets
    simp only [hp]

/-- A non-member (user 5) can read the audit trail and the assets of a
project owned by user 1 with steps assigned to users 2, 3 and 4,
refuting the claim that all three read operations require membership. -/
def c9db : Db := { s1 with assets := [⟨1, 1, 2, "raw_footage", "clip.mp4"⟩] }

theorem c9_read_access_counterexample :
    get_project_actions c9db 5 1 =
      .ok [⟨1, 1, none, 1, "create", none, some "Project created"⟩] ∧
    get_project_assets c9db 5 1 = .ok [⟨1, 1, 2, "raw_footage", "clip.mp4"⟩] := by
  constructor <;> rfl

theorem c9_read_access_witness :
    get_project c9db 5 1 = .error .forbiddenAccessDenied ∧
    get_project c9db 3 1 = .ok s1proj := by
  constructor
  · exact (c9_read_access_amended c9db 5 1 s1proj (by decide)).2.1 (by decide)
      (by decide)
  · exact (c9_read_access_amended c9db 3 1 s1proj (by decide)).1
      (Or.inr (by decide))

@[simp] theorem nextActionId_updateStep (db : Db) (sid : Nat)
    (f : ProjectStep → ProjectStep) :
    (updateStepById db sid f).nextActionId = db.nextActionId := rfl

@[simp] theorem nextActionId_updateProject (db : Db) (pid : Nat)
    (f : Project → Project) :
    (updateProjectById db pid f).nextActionId = db.nextActionId := rfl

@[simp] theorem nextActionId_insertSteps (db : Db) (pid : Nat) (l : List StepInput) :
    (insertSteps db pid l).nextActionId = db.nextActionId := rfl

@[simp] theorem nextActionId_create_notification (db : Db) (a : Nat) (b : Option Nat)
    (m : String) : (create_notification db a b m).nextActionId = db.nextActionId := rfl

/-- C8 (amended): every successful CreateProject, EditProject, Forward and
SendBack appends exactly one audit row capturing the acting user, the
project, the action kind and, where applicable, the step reference, the
step number and the comment.  DeleteProject appends NO audit row in any
outcome — it never calls `log_action` — and it cannot even succeed on a
project that has an audit row: the NOT NULL `project_id` of the audit
table has no delete cascade, so the commit raises `IntegrityError` and
rolls back.  Since every project created through the API carries its
`create` audit row, DeleteProject fails with a 500 on every reachable
project. -/
theorem c8_audit_amended (db : Db) (uid pid : Nat) (c : String) (now : Nat)
    (c2 : Option String) (data : CreateProjectInput) (ed : EditProjectInput) :
    (∀ db', create_project db uid data = .ok db' →
      db'.actions = db.actions ++
        [⟨db.nextActionId, db.nextProjectId, none, uid, "create", none,
          some "Project created"⟩]) ∧
    (∀ db', edit_project db uid pid ed = .ok db' →
      db'.actions = db.actions ++
        [⟨db.nextActionId, pid, none, uid, "edit", none, some "Project edited"⟩]) ∧
    (∀ db', forward_step db uid pid c now = .ok db' →
      ∃ a, db'.actions = db.actions ++ [a] ∧ a.userId = uid ∧ a.projectId = pid ∧
        (a.action = "forward" ∨ a.action = "complete") ∧ a.comments = some c ∧
        a.stepId.isSome = true ∧ a.stepNumber.isSome = true) ∧
    (∀ db', send_back_step db uid pid c2 = .ok db' →
      ∃ a, db'.actions = db.actions ++ [a] ∧ a.userId = uid ∧ a.projectId = pid ∧
        a.action = "send_back" ∧ a.comments = c2 ∧
        a.stepId.isSome = true ∧ a.stepNumber.isSome = true) ∧
    (∀ db', delete_project db uid pid = .ok db' → db'.actions = db.actions) ∧
    (∀ p, projectById db pid = some p → p.ownerId = uid →
      (∃ a ∈ db.actions, a.projectId = pid) →
      delete_project db uid pid = .error .internalError) := by
  refine ⟨?_, ?_, ?_, ?_, ?_, ?_⟩
  · intro db' h
    unfold create_project create_project_commits at h
    split at h
    · simp [Except.map] at h
    · split at h
      · simp [Except.map] at h
      · split at h
        · simp [Except.map] at h
        · dsimp only at h
          split at h
          · simp [Except.map] at h
            subst h
            simp
          · simp [Except.map] at h
            subst h
            simp
  · intro db' h
    unfold edit_project at h
    split at h
    · cases h
    · split at h
      · try dsimp only at h
        split at h
        · rw [Except.ok.injEq] at h
          subst h
          simp
        · try dsimp only at h
          split at h
          · cases h
          · rw [Except.ok.injEq] at h
            subst h
            simp
      · cases h
  · intro db' h
    unfold forward_step at h
    split at h
    · cases h
    · split at h
      · cases h
      · rename_i cs hcs
        split at h
        · dsimp only at h
          split at h
          · rw [Except.ok.injEq] at h
            subst h
            exact ⟨⟨db.nextActionId, pid, some cs.id, uid, "forward",
              some cs.stepNumber, some c⟩, by simp, rfl, rfl, Or.inl rfl, rfl, rfl, rfl⟩
          · rw [Except.ok.injEq] at h
            subst h
            exact ⟨⟨db.nextActionId, pid, some cs.id, uid, "complete",
              some cs.stepNumber, some c⟩, by simp, rfl, rfl, Or.inr rfl, rfl, rfl, rfl⟩
        · cases h
  · intro db' h
    unfold send_back_step at h
    split at h
    · cases h
    · split at h
      · cases h
      · rename_i cs hcs
        split at h
        · split at h
          · cases h
          · rename_i mc
            split at h
            · cases h
            · split at h
              · cases h
              · rename_i ps hps
                try dsimp only at h
                rw [Except.ok.injEq] at h
                subst h
                exact ⟨⟨db.nextActionId, pid, some cs.id, uid, "send_back",
                  some cs.stepNumber, some mc⟩, by simp, rfl, rfl, rfl, rfl, rfl, rfl⟩
        · cases h
  · intro db' h
    unfold delete_project at h
    split at h
    · cases h
    · split at h
      · split at h
        · cases h
        · rw [Except.ok.injEq] at h
          subst h
          rfl
      · cases h
  · intro p hp hown hex
    obtain ⟨a, ha, hapid⟩ := hex
    unfold delete_project
    simp only [hp]
    rw [if_pos hown]
    have hc : (db.actions.any (fun x => x.projectId == pid) ||
        db.assets.any (fun x => x.projectId == pid)) = true := by
      rw [Bool.or_eq_true]
      exact Or.inl (List.any_eq_true.mpr ⟨a, ha, by simp [hapid]⟩)
    rw [if_pos hc]

/-- Deleting the freshly created scenario project does not succeed at
all: its `create` audit row has a NOT NULL project reference with no
delete cascade, so the commit raises `IntegrityError` (HTTP 500) and the
transaction rolls back.  No successful DeleteProject exists to emit an
audit record, and no `delete` audit row is ever written. -/
theorem c8_audit_counterexample :
    delete_project s1 1 1 = .error .internalError ∧
    s1.actions.length = 1 ∧
    (s1.actions.filter (fun a => a.action == "delete")).length = 0 := by
  refine ⟨rfl, rfl, rfl⟩

theorem c8_audit_witness :
    s1.actions = baseDb.actions ++
      [⟨1, 1, none, 1, "create", none, some "Project created"⟩] ∧
    delete_project s1 1 1 = .error .internalError := by
  constructor
  · exact (c8_audit_amended baseDb 1 1 "" 0 none scenarioInput
      ⟨none, none, none⟩).1 s1 rfl
  · exact (c8_audit_amended s1 1 1 "" 0 none scenarioInput
      ⟨none, none, none⟩).2.2.2.2.2 s1proj rfl rfl
      ⟨⟨1, 1, none, 1, "create", none, some "Project created"⟩, by decide, rfl⟩

@[simp] theorem projectById_insertSteps (db : Db) (pid : Nat) (l : List StepInput)
    (x : Nat) : projectById (insertSteps db pid l) x = projectById db x := rfl

@[simp] theorem stepById_log_action (db : Db) (a b : Nat) (c : String)
    (d : Option Int) (e : Option Nat) (f : Option String) (x : Nat) :
    stepById (log_action db a b c d e f) x = stepById db x := rfl

@[simp] theorem stepById_create_notification (db : Db) (a : Nat) (b : Option Nat)
    (m : String) (x : Nat) :
    stepById (create_notification db a b m) x = stepById db x := rfl

@[simp] theorem stepById_updateProject (db : Db) (pid : Nat) (f : Project → Project)
    (x : Nat) : stepById (updateProjectById db pid f) x = stepById db x := rfl

@[simp] theorem nextNotificationId_updateStep (db : Db) (sid : Nat)
    (f : ProjectStep → ProjectStep) :
    (updateStepById db sid f).nextNotificationId = db.nextNotificationId := rfl

@[simp] theorem nextNotificationId_updateProject (db : Db) (pid : Nat)
    (f : Project → Project) :
    (updateProjectById db pid f).nextNotificationId = db.nextNotificationId := rfl

@[simp] theorem nextNotificationId_insertSteps (db : Db) (pid : Nat)
    (l : List StepInput) :
    (insertSteps db pid l).nextNotificationId = db.nextNotificationId := rfl

@[simp] theorem nextNotificationId_log_action (db : Db) (a b : Nat) (c : String)
    (d : Option Int) (e : Option Nat) (f : Option String) :
    (log_action db a b c d e f).nextNotificationId = db.nextNotificationId := rfl

/-- C3: SendBack by the current assignee with a non-empty comment, when a
step with a strictly greater number exists: the current step becomes
Sent Back with its completion timestamp untouched, the previous step (the
least number strictly above the current one) becomes In Progress with its
completion timestamp cleared, `current_step_number` moves there, exactly
one `send_back` audit row carrying the comment is appended, and exactly
one notification embedding the comment goes to the previous step's
assignee. -/
theorem c3_send_back (db : Db) (uid pid : Nat) (p : Project) (cs ps : ProjectStep)
    (m : String) (hwf : WfIds db)
    (hp : projectById db pid = some p)
    (hcs : get_current_step db p = some cs)
    (ha : cs.assignedUserId = uid)
    (hm : m ≠ "")
    (hps : get_previous_step db p = some ps) :
    ∃ db', send_back_step db uid pid (some m) = .ok db' ∧
      projectById db' pid = some { p with currentStepNumber := some ps.stepNumber } ∧
      stepById db' cs.id = some { cs with status := "Sent Back" } ∧
      stepById db' ps.id = some { ps with status := "In Progress", completedAt := none } ∧
      db'.actions = db.actions ++
        [⟨db.nextActionId, pid, some cs.id, uid, "send_back", some cs.stepNumber, some m⟩] ∧
      db'.notifications = db.notifications ++
        [⟨db.nextNotificationId, ps.assignedUserId, some pid,
          sendBackMessage p.projectName ps.stepNumber ps.stepName m, false⟩] ∧
      (∃ pre, sendBackMessage p.projectName ps.stepNumber ps.stepName m = pre ++ m) := by
  obtain ⟨hc, hz, hcsmem, hcspid, hcsfind⟩ := get_current_step_spec hcs
  obtain ⟨n, hn, _, hpsmem, hpspid, hlt, _, _⟩ := get_previous_step_spec hps
  have hnn : n = cs.stepNumber := by
    rw [hc] at hn
    exact (Option.some.injEq _ _ ▸ hn).symm
  subst hnn
  have hid := projectById_id hp
  have hcsne : cs ≠ ps := by
    intro he
    rw [he] at hlt
    exact lt_irrefl _ hlt
  have hidne : cs.id ≠ ps.id := ne_id_of_ne hwf.1 hcsmem hpsmem hcsne
  have hfindcs : stepById db cs.id = some cs :=
    find?_of_mem_nodupKey (fun s => s.id) hwf.1 hcsmem (fun a => rfl)
  have hfindps : stepById db ps.id = some ps :=
    find?_of_mem_nodupKey (fun s => s.id) hwf.1 hpsmem (fun a => rfl)
  unfold send_back_step
  simp only [hp, hcs, hps]
  rw [if_pos ha]
  rw [if_neg hm]
  refine ⟨_, rfl, ?_, ?_, ?_, by simp, by simp, ⟨_, rfl⟩⟩
  · simp only [projectById_create_notification, projectById_log_action,
      projectById_updateStep]
    rw [projectById_updateProject _ pid pid
      (fun q => { q with currentStepNumber := some ps.stepNumber }) (fun q => rfl)]
    simp only [projectById_updateStep]
    rw [hp]
    simp [hid]
  · simp only [stepById_create_notification, stepById_log_action]
    rw [stepById_updateStep _ ps.id cs.id
        (fun s => { s with status := "In Progress", completedAt := none })
        (fun s => rfl),
      stepById_updateProject,
      stepById_updateStep _ cs.id cs.id
        (fun s => { s with status := "Sent Back" }) (fun s => rfl),
      hfindcs]
    simp [hidne]
  · simp only [stepById_create_notification, stepById_log_action]
    rw [stepById_updateStep _ ps.id ps.id
        (fun s => { s with status := "In Progress", completedAt := none })
        (fun s => rfl),
      stepById_updateProject,
      stepById_updateStep _ cs.id ps.id
        (fun s => { s with status := "Sent Back" }) (fun s => rfl),
      hfindps]
    simp [Ne.symm hidne]

/-- Spec section 8 scenario for the witness: user 2 forwards P from step 3
to step 2 (assignee user 3), user 3 sends it back with "redo draft". -/
def s2 : Db := okD (forward_step s1 2 1 "" 10) s1

def s2proj : Project :=
  { id := 1, projectName := "P", description := "d", ownerId := 1,
    status := "In Progress", currentStepNumber := some 2 }

def s2step2 : ProjectStep :=
  { id := 2, projectId := 1, stepNumber := 2, stepName := "Review",
    taskDescription := "t", assignedUserId := 3, status := "In Progress",
    completedAt := none }

def s2step3 : ProjectStep :=
  { id := 1, projectId := 1, stepNumber := 3, stepName := "Draft",
    taskDescription := "t", assignedUserId := 2, status := "Completed",
    completedAt := some 10 }

theorem c3_send_back_witness :
    isOkB (send_back_step s2 3 1 (some "redo draft")) = true ∧
    (okD (send_back_step s2 3 1 (some "redo draft")) s2).notifications.length = 3 := by
  obtain ⟨db', heq, -, -, -, -, hnot, -⟩ := c3_send_back s2 3 1 s2proj s2step2 s2step3
    "redo draft" ((wfIdsB_iff s2).mp (by decide)) (by decide) (by decide) rfl
    (by decide) (by decide)
  rw [heq]
  constructor
  · rfl
  · show db'.notifications.length = 3
    rw [hnot]
    rfl

theorem applyEditFields_id (nm ds : Option String) (p : Project) :
    (applyEditFields nm ds p).id = p.id := by
  unfold applyEditFields
  cases nm <;> cases ds <;> rfl

theorem applyEditFields_status (nm ds : Option String) (p : Project) :
    (applyEditFields nm ds p).status = p.status := by
  unfold applyEditFields
  cases nm <;> cases ds <;> rfl

theorem projectById_setSteps (db : Db) (x : List ProjectStep) (pid : Nat) :
    projectById { db with steps := x } pid = projectById db pid := rfl

/-- After deleting every step of the project, none remain. -/
theorem stepsOf_after_delete (db : Db) (pid : Nat) :
    stepsOf { db with steps := db.steps.filter (fun s => s.projectId != pid) } pid
      = [] := by
  unfold stepsOf
  rw [List.filter_eq_nil_iff]
  intro a ha
  rw [List.mem_filter] at ha
  simp only [bne_iff_ne, ne_eq] at ha
  simp only [beq_iff_eq]
  exact ha.2

/-- The steps of a project right after a bulk insert into an empty step
set are exactly the freshly created rows. -/
theorem stepsOf_insertSteps_self (db : Db) (pid : Nat) (l : List StepInput)
    (h : stepsOf db pid = []) :
    stepsOf (insertSteps db pid l) pid = stepsFromInputs pid db.nextStepId l := by
  unfold stepsOf insertSteps at *
  simp only [List.filter_append, h, List.nil_append]
  rw [List.filter_eq_self]
  intro a ha
  have := (stepsFromInputs_props a ha).1
  simp [this]

/-- C4 (amended): EditProject by the owner with a non-empty steps list
replaces the entire step set by the new one and resets
`current_step_number` to the new maximum step number — regardless of
where the project previously was in its lifecycle, whose status is left
untouched — but every new step is created with status Pending: no step is
marked In Progress. -/
theorem c4_edit_amended (db : Db) (uid pid : Nat) (p : Project)
    (nm ds : Option String) (l : List StepInput)
    (hp : projectById db pid = some p)
    (howner : p.ownerId = uid)
    (hne : l ≠ []) :
    ∃ db' m, edit_project db uid pid ⟨nm, ds, some l⟩ = .ok db' ∧
      maxStepNumber l = some m ∧
      (∃ p', projectById db' pid = some p' ∧ p'.currentStepNumber = some m ∧
        p'.status = p.status) ∧
      (∀ s ∈ stepsOf db' pid, s.status = "Pending") ∧
      (stepsOf db' pid).map (fun s => (s.stepNumber, s.stepName, s.taskDescription,
        s.assignedUserId)) = l.map (fun sd => (sd.stepNumber, sd.stepName,
        sd.taskDescription, sd.assignedUserId)) := by
  obtain ⟨m, hm⟩ := maxStepNumber_isSome hne
  have hid := projectById_id hp
  unfold edit_project
  simp only [hp]
  rw [if_pos howner]
  simp only [hm]
  refine ⟨_, m, rfl, rfl, ?_, ?_, ?_⟩
  · refine ⟨{ applyEditFields nm ds p with currentStepNumber := some m }, ?_, rfl,
      applyEditFields_status nm ds p⟩
    simp only [projectById_log_action]
    rw [projectById_updateProject _ pid pid
      (fun q => { q with currentStepNumber := some m }) (fun q => rfl)]
    simp only [projectById_insertSteps]
    rw [projectById_setSteps]
    rw [projectById_updateProject _ pid pid (applyEditFields nm ds)
      (fun q => applyEditFields_id nm ds q)]
    rw [hp]
    simp [hid, applyEditFields_id]
  · intro s hs
    simp only [stepsOf_log_action, stepsOf_updateProject] at hs
    rw [stepsOf_insertSteps_self _ _ _ (stepsOf_after_delete _ _)] at hs
    exact (stepsFromInputs_props s hs).2.1
  · simp only [stepsOf_log_action, stepsOf_updateProject]
    rw [stepsOf_insertSteps_self _ _ _ (stepsOf_after_delete _ _)]
    exact stepsFromInputs_fields

/-- Concrete refutation of the In Progress part: replacing the steps of a
project leaves the new maximum-numbered step Pending. -/
def c4pre : Db :=
  okD (create_project baseDb 1
    { projectName := "P", description := "d", steps := [⟨1, "A", "t", 2⟩] }) baseDb

def c4steps : List StepInput := [⟨2, "B", "t", 3⟩, ⟨1, "A", "t", 2⟩]

def c4edit : EditProjectInput := ⟨none, none, some c4steps⟩

def c4db : Db := okD (edit_project c4pre 1 1 c4edit) c4pre

def c4preProj : Project :=
  { id := 1, projectName := "P", description := "d", ownerId := 1,
    status := "In Progress", currentStepNumber := some 1 }

theorem c4_edit_counterexample :
    (projectById c4db 1).map (fun p => p.currentStepNumber) = some (some 2) ∧
    ((stepsOf c4db 1).find? (fun s => s.stepNumber == 2)).map (fun s => s.status) =
      some "Pending" ∧
    (stepsOf c4db 1).all (fun s => s.status == "Pending") = true := by
  refine ⟨rfl, rfl, rfl⟩

theorem c4_edit_witness : isOkB (edit_project c4pre 1 1 c4edit) = true := by
  obtain ⟨db', mm, heq, -, -, -, -⟩ := c4_edit_amended c4pre 1 1 c4preProj none none
    c4steps (by decide) rfl (by decide)
  show isOkB (edit_project c4pre 1 1 ⟨none, none, some c4steps⟩) = true
  rw [heq]
  rfl

/-- C7 (amended): CreateProject is not a single atomic unit.  It commits
three times: first the project, its steps and the current-step pointer;
then (inside `log_action`) the `create` audit row; then (inside
`create_notification`) the notification.  The state after the first
commit — the project present, the audit and notification tables untouched
— is observable between the commits, so an intermediate state with a
committed project but no audit row is visible to concurrent readers. -/
theorem c7_atomicity_amended (db : Db) (uid : Nat) (data : CreateProjectInput)
    (hne : data.steps ≠ [])
    (hall : ∀ sd ∈ data.steps, (userById db sd.assignedUserId).isSome) :
    ∃ c1 c2 c3, create_project_commits db uid data = .ok [c1, c2, c3] ∧
      (∃ q, projectById c1 db.nextProjectId = some q) ∧
      c1.actions = db.actions ∧
      c1.notifications = db.notifications ∧
      c2.actions = db.actions ++
        [⟨db.nextActionId, db.nextProjectId, none, uid, "create", none,
          some "Project created"⟩] ∧
      c2.notifications = db.notifications ∧
      (∃ nt, c3.notifications = db.notifications ++ [nt]) ∧
      create_project db uid data = .ok c3 := by
  have hfind : data.steps.find?
      (fun sd => (userById db sd.assignedUserId).isNone) = none := by
    rw [List.find?_eq_none]
    intro sd hsd
    simp only [Bool.not_eq_true, Option.isNone_eq_false_iff]
    exact hall sd hsd
  obtain ⟨m, hm⟩ := maxStepNumber_isSome hne
  obtain ⟨hex, -⟩ := maxStepNumber_spec hm
  unfold create_project create_project_commits
  rw [if_neg (by simpa using hne)]
  simp only [hfind, hm]
  split
  · rename_i hso hhso
    refine ⟨_, _, _, rfl, ?_, rfl, rfl, by simp, rfl,
      ⟨⟨db.nextNotificationId, hso.assignedUserId, some db.nextProjectId,
        createMessage data.projectName m hso.stepName, false⟩, by simp⟩, rfl⟩
    refine Option.isSome_iff_exists.mp ?_
    unfold projectById
    rw [List.find?_isSome]
    refine ⟨{ id := db.nextProjectId, projectName := data.projectName,
              description := data.description, ownerId := uid,
              status := "In Progress", currentStepNumber := some m }, ?_, by simp⟩
    show _ ∈ (db.projects ++
      [({ id := db.nextProjectId, projectName := data.projectName,
          description := data.description, ownerId := uid,
          status := "In Progress", currentStepNumber := none } : Project)]).map
      (fun q : Project => if (q.id == db.nextProjectId) = true then
        { q with currentStepNumber := some m } else q)
    refine List.mem_map.mpr ⟨_, List.mem_append_right _ (List.mem_singleton.mpr rfl), ?_⟩
    simp
  · rename_i hhso
    exfalso
    obtain ⟨s, hs, hnum⟩ :=
      @stepsFromInputs_exists_num db.nextProjectId db.nextStepId data.steps m hex
    have hprops := stepsFromInputs_props s hs
    have hmem : s ∈ db.steps ++
        stepsFromInputs db.nextProjectId db.nextStepId data.steps :=
      List.mem_append_right _ hs
    have hnot := List.find?_eq_none.mp hhso s hmem
    refine hnot ?_
    simp [hprops.1, hnum]

/-- The commit snapshots of creating the section 8 scenario project. -/
def c7commits : List Db :=
  match create_project_commits baseDb 1 scenarioInput with
  | .ok l => l
  | .error _ => []

/-- After the first of the three commits, project 1 is present while the
audit and notification tables are still empty: an observable intermediate
state, refuting the all-or-nothing claim. -/
theorem c7_atomicity_counterexample :
    c7commits.length = 3 ∧
    (c7commits.head?.map (fun s => ((projectById s 1).isSome, s.actions.length,
      s.notifications.length))) = some (true, 0, 0) := by
  constructor <;> rfl

theorem c7_atomicity_witness :
    isOkB (create_project_commits baseDb 1 scenarioInput) = true := by
  obtain ⟨c1, c2, c3, heq, -, -, -, -, -, -, -⟩ := c7_atomicity_amended baseDb 1
    scenarioInput (by decide) (by decide)
  rw [heq]
  rfl

theorem get_next_step_none_spec {db : Db} {p : Project} (h : get_next_step db p = none)
    {n : Int} (hc : p.currentStepNumber = some n) (hz : n ≠ 0) :
    ∀ s ∈ stepsOf db p.id, ¬ s.stepNumber < n := by
  unfold get_next_step at h
  simp only [hc] at h
  rw [if_neg hz] at h
  have hnil := maxByStepNumber_eq_none.mp h
  rw [List.filter_eq_nil_iff] at hnil
  intro s hs hlt
  exact hnil s hs (decide_eq_true hlt)

/-- C2 (amended): Forward by the current step's assignee always marks the
current step Completed with the completion timestamp stamped.  If no step
of the project has a strictly smaller number, the project status becomes
Completed and `current_step_number` becomes null.  Otherwise
`current_step_number` decreases to the greatest existing step number
strictly below the old one, that step becomes In Progress, and the
project's status is left unchanged (so it remains In Progress exactly
when it was In Progress before — it is not forced to In Progress). -/
theorem c2_forward_amended (db : Db) (uid pid : Nat) (p : Project)
    (cs : ProjectStep) (c : String) (now : Nat)
    (hwf : WfIds db)
    (hp : projectById db pid = some p)
    (hcs : get_current_step db p = some cs)
    (ha : cs.assignedUserId = uid) :
    ∃ db', forward_step db uid pid c now = .ok db' ∧
      stepById db' cs.id =
        some { cs with status := "Completed", completedAt := some now } ∧
      ((¬ ∃ s ∈ stepsOf db pid, s.stepNumber < cs.stepNumber) →
        projectById db' pid =
          some { p with status := "Completed", currentStepNumber := none }) ∧
      ((∃ s ∈ stepsOf db pid, s.stepNumber < cs.stepNumber) →
        ∃ ns, ns ∈ stepsOf db pid ∧ ns.stepNumber < cs.stepNumber ∧
          (∀ y ∈ stepsOf db pid, y.stepNumber < cs.stepNumber →
            y.stepNumber ≤ ns.stepNumber) ∧
          projectById db' pid =
            some { p with currentStepNumber := some ns.stepNumber } ∧
          stepById db' ns.id = some { ns with status := "In Progress" }) := by
  obtain ⟨hc, hz, hcsmem, hcspid, hcsfind⟩ := get_current_step_spec hcs
  have hid := projectById_id hp
  have hfindcs : stepById db cs.id = some cs :=
    find?_of_mem_nodupKey (fun s => s.id) hwf.1 hcsmem (fun a => rfl)
  have hnext := get_next_step_updateStep db cs.id p
    (fun s => { s with status := "Completed", completedAt := some now })
    (fun s => ⟨rfl, rfl⟩)
  unfold forward_step
  simp only [hp, hcs]
  rw [if_pos ha]
  cases hgn : get_next_step db p with
  | none =>
    have hnone : get_next_step (updateStepById db cs.id
        (fun s => { s with status := "Completed", completedAt := some now })) p
        = none := by
      rw [hnext, hgn]
      rfl
    simp only [hnone]
    refine ⟨_, rfl, ?_, ?_, ?_⟩
    · simp only [stepById_create_notification, stepById_log_action,
        stepById_updateProject]
      rw [stepById_updateStep _ cs.id cs.id
        (fun s => { s with status := "Completed", completedAt := some now })
        (fun s => rfl), hfindcs]
      simp
    · intro hno
      simp only [projectById_create_notification, projectById_log_action]
      rw [projectById_updateProject _ pid pid
        (fun q => { q with status := "Completed", currentStepNumber := none })
        (fun q => rfl)]
      simp only [projectById_updateStep]
      rw [hp]
      simp [hid]
    · intro hex
      obtain ⟨s, hs, hslt⟩ := hex
      have := get_next_step_none_spec hgn hc hz s (hid ▸ hs)
      exact absurd hslt this
  | some ns =>
    obtain ⟨n, hn, hnz, hnsmem, hnspid, hnslt, hnsmax, hnsfind⟩ :=
      get_next_step_spec hgn
    have hnn : n = cs.stepNumber := by
      rw [hc] at hn
      exact (Option.some.injEq _ _ ▸ hn).symm
    subst hnn
    have hnsne : ns ≠ cs := by
      intro he
      rw [he] at hnslt
      exact lt_irrefl _ hnslt
    have hidne : ns.id ≠ cs.id := ne_id_of_ne hwf.1 hnsmem hcsmem hnsne
    have hfindns : stepById db ns.id = some ns :=
      find?_of_mem_nodupKey (fun s => s.id) hwf.1 hnsmem (fun a => rfl)
    have hsome : get_next_step (updateStepById db cs.id
        (fun s => { s with status := "Completed", completedAt := some now })) p
        = some ns := by
      rw [hnext, hgn]
      simp [hidne]
    simp only [hsome]
    refine ⟨_, rfl, ?_, ?_, ?_⟩
    · simp only [stepById_create_notification, stepById_log_action]
      rw [stepById_updateStep _ ns.id cs.id
          (fun s => { s with status := "In Progress" }) (fun s => rfl),
        stepById_updateProject,
        stepById_updateStep _ cs.id cs.id
          (fun s => { s with status := "Completed", completedAt := some now })
          (fun s => rfl),
        hfindcs]
      simp [Ne.symm hidne]
    · intro hno
      refine absurd ⟨ns, ?_, hnslt⟩ hno
      rw [← hid, stepsOf, List.mem_filter]
      exact ⟨hnsmem, by simp [hnspid]⟩
    · intro hex
      refine ⟨ns, ?_, hnslt, ?_, ?_, ?_⟩
      · rw [← hid]
        rw [stepsOf, List.mem_filter]
        exact ⟨hnsmem, by simp [hnspid]⟩
      · intro y hy hylt
        exact hnsmax y (by rw [← hid] at hy; exact hy) hylt
      · simp only [projectById_create_notification, projectById_log_action,
          projectById_updateStep]
        rw [projectById_updateProject _ pid pid
          (fun q => { q with currentStepNumber := some ns.stepNumber })
          (fun q => rfl)]
        simp only [projectById_updateStep]
        rw [hp]
        simp [hid]
      · simp only [stepById_create_notification, stepById_log_action]
        rw [stepById_updateStep _ ns.id ns.id
            (fun s => { s with status := "In Progress" }) (fun s => rfl),
          stepById_updateProject,
          stepById_updateStep _ cs.id ns.id
            (fun s => { s with status := "Completed", completedAt := some now })
            (fun s => rfl),
          hfindns]
        simp [hidne]

/-- A reachable state refuting the claim's "the status stays InProgress":
a two-step project is completed, then the owner edits in a fresh step set
(steps 5 and 4), which resets `current_step_number` to 5 while the status
stays Completed; user 4 then forwards from step 5 to step 4 successfully,
and the status remains "Completed", not "In Progress". -/
def c2a : Db :=
  okD (create_project baseDb 1
    { projectName := "P", description := "d",
      steps := [⟨2, "A", "t", 2⟩, ⟨1, "B", "t", 3⟩] }) baseDb

def c2b : Db := okD (forward_step c2a 2 1 "" 10) c2a

def c2c : Db := okD (forward_step c2b 3 1 "" 11) c2b

def c2pre : Db :=
  okD (edit_project c2c 1 1
    ⟨none, none, some [⟨5, "C", "t", 4⟩, ⟨4, "D", "t", 5⟩]⟩) c2c

def c2post : Db := okD (forward_step c2pre 4 1 "" 12) c2pre

theorem c2_forward_counterexample :
    isOkB (forward_step c2pre 4 1 "" 12) = true ∧
    (projectById c2pre 1).map (fun p => (p.currentStepNumber, p.status)) =
      some (some 5, "Completed") ∧
    ((stepsOf c2pre 1).any (fun s => decide (s.stepNumber < 5))) = true ∧
    (projectById c2post 1).map (fun p => (p.currentStepNumber, p.status)) =
      some (some 4, "Completed") := by
  refine ⟨rfl, rfl, rfl, rfl⟩

def c2preProj : Project :=
  { id := 1, projectName := "P", description := "d", ownerId := 1,
    status := "Completed", currentStepNumber := some 5 }

def c2preStep5 : ProjectStep :=
  { id := 3, projectId := 1, stepNumber := 5, stepName := "C",
    taskDescription := "t", assignedUserId := 4, status := "Pending",
    completedAt := none }

theorem c2_forward_witness :
    isOkB (forward_step s1 2 1 "note" 10) = true := by
  obtain ⟨db', heq, -, -, -⟩ := c2_forward_amended s1 2 1 s1proj s1step3 "note" 10
    ((wfIdsB_iff s1).mp (by decide)) (by decide) (by decide) rfl
  rw [heq]
  rfl

/-! ### Well-formedness is preserved by every operation -/

theorem map_key_of_pres {u : ProjectStep → ProjectStep}
    (hu : ∀ s, (u s).id = s.id) (l : List ProjectStep) :
    (l.map u).map (fun s => s.id) = l.map (fun s => s.id) := by
  rw [List.map_map]
  exact List.map_congr_left (fun a _ => hu a)

theorem wfIds_updateStep {db : Db} (hwf : WfIds db) (sid : Nat)
    (f : ProjectStep → ProjectStep)
    (hf : ∀ s, (f s).id = s.id ∧ (f s).projectId = s.projectId) :
    WfIds (updateStepById db sid f) := by
  obtain ⟨hnd, hfr, hpf, hprf⟩ := hwf
  have hu : ∀ t : ProjectStep, (if (t.id == sid) = true then f t else t).id = t.id :=
    fun t => by by_cases h : (t.id == sid) = true <;> simp [h, (hf t).1]
  refine ⟨?_, ?_, ?_, hprf⟩
  · show ((db.steps.map (fun t => if (t.id == sid) = true then f t else t)).map
      (fun s => s.id)).Nodup
    rw [map_key_of_pres hu]
    exact hnd
  · intro s hs
    obtain ⟨s0, hs0, he⟩ := List.mem_map.mp hs
    rw [← he]
    show (if (s0.id == sid) = true then f s0 else s0).id < _
    by_cases h : (s0.id == sid) = true <;> simp [h, (hf s0).1] <;> exact hfr s0 hs0
  · intro s hs
    obtain ⟨s0, hs0, he⟩ := List.mem_map.mp hs
    rw [← he]
    show (if (s0.id == sid) = true then f s0 else s0).projectId < _
    by_cases h : (s0.id == sid) = true <;> simp [h, (hf s0).2] <;> exact hpf s0 hs0

theorem wfIds_updateProject {db : Db} (hwf : WfIds db) (pid : Nat)
    (f : Project → Project) (hf : ∀ p, (f p).id = p.id) :
    WfIds (updateProjectById db pid f) := by
  obtain ⟨hnd, hfr, hpf, hprf⟩ := hwf
  refine ⟨hnd, hfr, hpf, ?_⟩
  intro p hp
  obtain ⟨p0, hp0, he⟩ := List.mem_map.mp hp
  rw [← he]
  show (if (p0.id == pid) = true then f p0 else p0).id < _
  by_cases h : (p0.id == pid) = true <;> simp [h, hf p0] <;> exact hprf p0 hp0

theorem wfIds_addProject {db : Db} (hwf : WfIds db) (newp : Project)
    (h : newp.id = db.nextProjectId) :
    WfIds { db with projects := db.projects ++ [newp],
                    nextProjectId := db.nextProjectId + 1 } := by
  obtain ⟨hnd, hfr, hpf, hprf⟩ := hwf
  refine ⟨hnd, hfr, ?_, ?_⟩
  · intro s hs
    exact Nat.lt_succ_of_lt (hpf s hs)
  · intro p hp
    rcases List.mem_append.mp hp with hold | hnew
    · exact Nat.lt_succ_of_lt (hprf p hold)
    · rw [List.mem_singleton.mp hnew, h]
      exact Nat.lt_succ_self _

theorem wfIds_insertSteps {db : Db} (hwf : WfIds db) (pid : Nat)
    (l : List StepInput) (hpid : pid < db.nextProjectId) :
    WfIds (insertSteps db pid l) := by
  obtain ⟨hnd, hfr, hpf, hprf⟩ := hwf
  refine ⟨?_, ?_, ?_, hprf⟩
  · show ((db.steps ++ stepsFromInputs pid db.nextStepId l).map (fun s => s.id)).Nodup
    rw [List.map_append, stepsFromInputs_map_id, List.nodup_append]
    refine ⟨hnd, List.nodup_range' _ _ 1 (by decide), ?_⟩
    intro a ha hmem
    obtain ⟨s, hs, he⟩ := List.mem_map.mp ha
    rw [List.mem_range'_1] at hmem
    have := hfr s hs
    omega
  · intro s hs
    rcases List.mem_append.mp hs with hold | hnew
    · have := hfr s hold
      show s.id < db.nextStepId + l.length
      omega
    · have := (stepsFromInputs_props s hnew).2.2.2.2
      show s.id < db.nextStepId + l.length
      omega
  · intro s hs
    rcases List.mem_append.mp hs with hold | hnew
    · exact hpf s hold
    · have := (stepsFromInputs_props s hnew).1
      show s.projectId < db.nextProjectId
      omega

/-! ### The invariant is established by create and preserved by
forward and send-back -/

/-- The aligned current row is the one `get_current_step` returns, and it
is In Progress. -/
theorem current_is_in_progress {db : Db} {p : Project} {cs : ProjectStep}
    (hsi : StrongInv db p) (hcs : get_current_step db p = some cs) :
    cs.status = "In Progress" ∧ cs ∈ stepsOf db p.id := by
  obtain ⟨hc, hz, hcsmem, hcspid, hcsfind⟩ := get_current_step_spec hcs
  obtain ⟨s0, hfind0, hIP0⟩ := hsi.2 cs.stepNumber hc
  have : s0 = cs := by
    rw [hcsfind] at hfind0
    exact (Option.some.injEq _ _ ▸ hfind0).symm
  subst this
  refine ⟨hIP0, ?_⟩
  rw [stepsOf, List.mem_filter]
  exact ⟨hcsmem, by simp [hcspid]⟩

theorem updDone_hit {cid now : Nat} {s : ProjectStep} (h : s.id = cid) :
    (fun t : ProjectStep => if (t.id == cid) = true then
      { t with status := "Completed", completedAt := some now } else t) s =
    { s with status := "Completed", completedAt := some now } := by
  simp [h]

theorem updDone_miss {cid now : Nat} {s : ProjectStep} (h : s.id ≠ cid) :
    (fun t : ProjectStep => if (t.id == cid) = true then
      { t with status := "Completed", completedAt := some now } else t) s = s := by
  simp [h]

theorem updIP_hit {nid : Nat} {s : ProjectStep} (h : s.id = nid) :
    (fun t : ProjectStep => if (t.id == nid) = true then
      { t with status := "In Progress" } else t) s =
    { s with status := "In Progress" } := by
  simp [h]

theorem updIP_miss {nid : Nat} {s : ProjectStep} (h : s.id ≠ nid) :
    (fun t : ProjectStep => if (t.id == nid) = true then
      { t with status := "In Progress" } else t) s = s := by
  simp [h]

theorem updSB_hit {cid : Nat} {s : ProjectStep} (h : s.id = cid) :
    (fun t : ProjectStep => if (t.id == cid) = true then
      { t with status := "Sent Back" } else t) s =
    { s with status := "Sent Back" } := by
  simp [h]

theorem updSB_miss {cid : Nat} {s : ProjectStep} (h : s.id ≠ cid) :
    (fun t : ProjectStep => if (t.id == cid) = true then
      { t with status := "Sent Back" } else t) s = s := by
  simp [h]

theorem updIPclear_hit {nid : Nat} {s : ProjectStep} (h : s.id = nid) :
    (fun t : ProjectStep => if (t.id == nid) = true then
      { t with status := "In Progress", completedAt := none } else t) s =
    { s with status := "In Progress", completedAt := none } := by
  simp [h]

theorem updIPclear_miss {nid : Nat} {s : ProjectStep} (h : s.id ≠ nid) :
    (fun t : ProjectStep => if (t.id == nid) = true then
      { t with status := "In Progress", completedAt := none } else t) s = s := by
  simp [h]

theorem completed_ne_inprogress : ("Completed" : String) ≠ "In Progress" := by decide

theorem pending_ne_inprogress : ("Pending" : String) ≠ "In Progress" := by decide

theorem sentback_ne_inprogress : ("Sent Back" : String) ≠ "In Progress" := by decide

theorem stepsOf_updDone (db : Db) (pid cid : Nat) (now : Nat) :
    stepsOf (updateStepById db cid
      (fun s => { s with status := "Completed", completedAt := some now })) pid =
    (stepsOf db pid).map (fun t : ProjectStep => if (t.id == cid) = true then
      { t with status := "Completed", completedAt := some now } else t) :=
  stepsOf_updateStep db pid cid _ (fun s => rfl)

theorem stepsOf_updIP (db : Db) (pid nid : Nat) :
    stepsOf (updateStepById db nid
      (fun s => { s with status := "In Progress" })) pid =
    (stepsOf db pid).map (fun t : ProjectStep => if (t.id == nid) = true then
      { t with status := "In Progress" } else t) :=
  stepsOf_updateStep db pid nid _ (fun s => rfl)

theorem stepsOf_updSB (db : Db) (pid cid : Nat) :
    stepsOf (updateStepById db cid
      (fun s => { s with status := "Sent Back" })) pid =
    (stepsOf db pid).map (fun t : ProjectStep => if (t.id == cid) = true then
      { t with status := "Sent Back" } else t) :=
  stepsOf_updateStep db pid cid _ (fun s => rfl)

theorem stepsOf_updIPclear (db : Db) (pid nid : Nat) :
    stepsOf (updateStepById db nid
      (fun s => { s with status := "In Progress", completedAt := none })) pid =
    (stepsOf db pid).map (fun t : ProjectStep => if (t.id == nid) = true then
      { t with status := "In Progress", completedAt := none } else t) :=
  stepsOf_updateStep db pid nid _ (fun s => rfl)

theorem findNum_updDone (db : Db) (pid cid : Nat) (now : Nat) (n : Int) :
    (updateStepById db cid
        (fun s => { s with status := "Completed", completedAt := some now })).steps.find?
        (fun t => t.projectId == pid && t.stepNumber == n) =
    (db.steps.find? (fun t => t.projectId == pid && t.stepNumber == n)).map
      (fun t : ProjectStep => if (t.id == cid) = true then
        { t with status := "Completed", completedAt := some now } else t) :=
  findNum_updateStep db pid cid n _ (fun s => ⟨rfl, rfl⟩)

theorem findNum_updIP (db : Db) (pid nid : Nat) (n : Int) :
    (updateStepById db nid (fun s => { s with status := "In Progress" })).steps.find?
        (fun t => t.projectId == pid && t.stepNumber == n) =
    (db.steps.find? (fun t => t.projectId == pid && t.stepNumber == n)).map
      (fun t : ProjectStep => if (t.id == nid) = true then
        { t with status := "In Progress" } else t) :=
  findNum_updateStep db pid nid n _ (fun s => ⟨rfl, rfl⟩)

theorem findNum_updSB (db : Db) (pid cid : Nat) (n : Int) :
    (updateStepById db cid (fun s => { s with status := "Sent Back" })).steps.find?
        (fun t => t.projectId == pid && t.stepNumber == n) =
    (db.steps.find? (fun t => t.projectId == pid && t.stepNumber == n)).map
      (fun t : ProjectStep => if (t.id == cid) = true then
        { t with status := "Sent Back" } else t) :=
  findNum_updateStep db pid cid n _ (fun s => ⟨rfl, rfl⟩)

theorem findNum_updIPclear (db : Db) (pid nid : Nat) (n : Int) :
    (updateStepById db nid
        (fun s => { s with status := "In Progress", completedAt := none })).steps.find?
        (fun t => t.projectId == pid && t.stepNumber == n) =
    (db.steps.find? (fun t => t.projectId == pid && t.stepNumber == n)).map
      (fun t : ProjectStep => if (t.id == nid) = true then
        { t with status := "In Progress", completedAt := none } else t) :=
  findNum_updateStep db pid nid n _ (fun s => ⟨rfl, rfl⟩)

theorem forward_preserves_inv {db : Db} {uid pid : Nat} {p : Project}
    {c : String} {now : Nat} {db' : Db}
    (hwf : WfIds db) (hp : projectById db pid = some p) (hsi : StrongInv db p)
    (h : forward_step db uid pid c now = .ok db') :
    WfIds db' ∧ ∃ q, projectById db' pid = some q ∧ StrongInv db' q := by
  unfold forward_step at h
  simp only [hp] at h
  cases hcs : get_current_step db p with
  | none => simp only [hcs] at h; cases h
  | some cs =>
  simp only [hcs] at h
  by_cases hass : cs.assignedUserId = uid
  case neg => rw [if_neg hass] at h; cases h
  case pos =>
  rw [if_pos hass] at h
  obtain ⟨hc, hz, hcsmem, hcspid, hcsfind⟩ := get_current_step_spec hcs
  obtain ⟨hcsIP, hcsInSteps⟩ := current_is_in_progress hsi hcs
  have hid := projectById_id hp
  have hnext := get_next_step_updateStep db cs.id p
    (fun s => { s with status := "Completed", completedAt := some now })
    (fun s => ⟨rfl, rfl⟩)
  cases hgn : get_next_step db p with
  | none =>
    have hnone : get_next_step (updateStepById db cs.id
        (fun s => { s with status := "Completed", completedAt := some now })) p
        = none := by
      rw [hnext, hgn]
      rfl
    simp only [hnone] at h
    rw [Except.ok.injEq] at h
    subst h
    refine ⟨?_, ?_⟩
    · exact wfIds_updateProject
        (wfIds_updateStep hwf cs.id
          (fun s => { s with status := "Completed", completedAt := some now })
          (fun s => ⟨rfl, rfl⟩)) pid
        (fun q => { q with status := "Completed", currentStepNumber := none })
        (fun q => rfl)
    · refine ⟨{ p with status := "Completed", currentStepNumber := none }, ?_, ?_⟩
      · simp only [projectById_create_notification, projectById_log_action]
        rw [projectById_updateProject _ pid pid
          (fun q => { q with status := "Completed", currentStepNumber := none })
          (fun q => rfl)]
        simp only [projectById_updateStep]
        rw [hp]
        simp [hid]
      · have hnoIP : ∀ x0 ∈ stepsOf db p.id,
            ¬ ((fun t : ProjectStep => if (t.id == cs.id) = true then
              { t with status := "Completed", completedAt := some now } else t)
              x0).status = "In Progress" := by
          intro x0 hx0
          by_cases hxc : x0.id = cs.id
          · rw [updDone_hit hxc]
            exact completed_ne_inprogress
          · rw [updDone_miss hxc]
            intro hIP
            exact hxc (congrArg ProjectStep.id
              (hsi.1.2.1 x0 hx0 cs hcsInSteps hIP hcsIP))
        refine ⟨⟨?_, ?_, ?_⟩, ?_⟩
        · exact ⟨fun hx => rfl, fun hx => rfl⟩
        · intro s hs t ht hsP htP
          dsimp only at hs ht
          simp only [stepsOf_create_notification, stepsOf_log_action,
            stepsOf_updateProject] at hs ht
          rw [stepsOf_updateStep _ p.id cs.id
            (fun s => { s with status := "Completed", completedAt := some now })
            (fun s => rfl)] at hs ht
          obtain ⟨s0, hs0, hes⟩ := List.mem_map.mp hs
          rw [← hes] at hsP
          exact absurd hsP (hnoIP s0 hs0)
        · intro n hn
          cases hn
        · intro n hn
          cases hn
  | some ns =>
    obtain ⟨n, hn, hnz, hnsmem, hnspid, hnslt, hnsmax, hnsfind⟩ :=
      get_next_step_spec hgn
    have hnn : n = cs.stepNumber := by
      rw [hc] at hn
      exact (Option.some.injEq _ _ ▸ hn).symm
    subst hnn
    have hnsne : ns ≠ cs := fun he => absurd (he ▸ hnslt) (lt_irrefl _)
    have hidne : ns.id ≠ cs.id := ne_id_of_ne hwf.1 hnsmem hcsmem hnsne
    have hnsInSteps : ns ∈ stepsOf db p.id := by
      rw [stepsOf, List.mem_filter]
      exact ⟨hnsmem, by simp [hnspid]⟩
    have hsome : get_next_step (updateStepById db cs.id
        (fun s => { s with status := "Completed", completedAt := some now })) p
        = some ns := by
      rw [hnext, hgn]
      simp [hidne]
    simp only [hsome] at h
    rw [Except.ok.injEq] at h
    subst h
    have hstatusne : p.status ≠ "Completed" := by
      intro hcompl
      have hcn := hsi.1.1.mpr hcompl
      rw [hc] at hcn
      cases hcn
    have key : ∀ x0 ∈ stepsOf db p.id,
        ((fun t : ProjectStep => if (t.id == ns.id) = true then
          { t with status := "In Progress" } else t)
          ((fun t : ProjectStep => if (t.id == cs.id) = true then
            { t with status := "Completed", completedAt := some now } else t)
            x0)).status = "In Progress" →
        ((fun t : ProjectStep => if (t.id == ns.id) = true then
          { t with status := "In Progress" } else t)
          ((fun t : ProjectStep => if (t.id == cs.id) = true then
            { t with status := "Completed", completedAt := some now } else t)
            x0)) = { ns with status := "In Progress" } := by
      intro x0 hx0
      by_cases hxc : x0.id = cs.id
      · rw [updDone_hit hxc]
        have hne2 : ({ x0 with status := "Completed", completedAt := some now } :
            ProjectStep).id ≠ ns.id := fun he => hidne (he.symm.trans hxc)
        rw [updIP_miss hne2]
        intro hIP
        exact absurd hIP completed_ne_inprogress
      · rw [updDone_miss hxc]
        by_cases hxn : x0.id = ns.id
        · have hx0ns : x0 = ns := by
            have hmem0 : x0 ∈ db.steps := List.mem_of_mem_filter hx0
            exact List.inj_on_of_nodup_map hwf.1 hmem0 hnsmem hxn
          rw [updIP_hit hxn, hx0ns]
          intro hIP
          rfl
        · rw [updIP_miss hxn]
          intro hIP
          exact absurd (congrArg ProjectStep.id
            (hsi.1.2.1 x0 hx0 cs hcsInSteps hIP hcsIP)) hxc
    refine ⟨?_, ?_⟩
    · refine wfIds_updateStep ?_ ns.id
        (fun s => { s with status := "In Progress" }) (fun s => ⟨rfl, rfl⟩)
      exact wfIds_updateProject
        (wfIds_updateStep hwf cs.id
          (fun s => { s with status := "Completed", completedAt := some now })
          (fun s => ⟨rfl, rfl⟩)) pid
        (fun q => { q with currentStepNumber := some ns.stepNumber })
        (fun q => rfl)
    · refine ⟨{ p with currentStepNumber := some ns.stepNumber }, ?_, ?_⟩
      · simp only [projectById_create_notification, projectById_log_action,
          projectById_updateStep]
        rw [projectById_updateProject _ pid pid
          (fun q => { q with currentStepNumber := some ns.stepNumber })
          (fun q => rfl)]
        simp only [projectById_updateStep]
        rw [hp]
        simp [hid]
      · refine ⟨⟨?_, ?_, ?_⟩, ?_⟩
        · exact ⟨fun hx => absurd hx (by simp), fun hx => absurd hx hstatusne⟩
        · intro s hs t ht hsP htP
          dsimp only at hs ht
          simp only [stepsOf_create_notification, stepsOf_log_action] at hs ht
          rw [stepsOf_updateStep _ p.id ns.id
            (fun s => { s with status := "In Progress" }) (fun s => rfl)] at hs ht
          simp only [stepsOf_updateProject] at hs ht
          rw [stepsOf_updateStep _ p.id cs.id
            (fun s => { s with status := "Completed", completedAt := some now })
            (fun s => rfl)] at hs ht
          obtain ⟨s1x, hs1x, hes⟩ := List.mem_map.mp hs
          obtain ⟨s0, hs0, hes0⟩ := List.mem_map.mp hs1x
          obtain ⟨t1x, ht1x, het⟩ := List.mem_map.mp ht
          obtain ⟨t0, ht0, het0⟩ := List.mem_map.mp ht1x
          subst hes
          subst hes0
          subst het
          subst het0
          have e1 := key s0 hs0 hsP
          have e2 := key t0 ht0 htP
          exact e1.trans e2.symm
        · intro m hm
          dsimp only at hm
          have hmm : m = ns.stepNumber := by
            simpa using hm.symm
          subst hmm
          refine ⟨{ ns with status := "In Progress" }, ?_, rfl, rfl⟩
          dsimp only
          simp only [stepsOf_create_notification, stepsOf_log_action]
          rw [stepsOf_updateStep _ p.id ns.id
            (fun s => { s with status := "In Progress" }) (fun s => rfl)]
          simp only [stepsOf_updateProject]
          rw [stepsOf_updateStep _ p.id cs.id
            (fun s => { s with status := "Completed", completedAt := some now })
            (fun s => rfl)]
          refine List.mem_map.mpr ⟨ns, List.mem_map.mpr ⟨ns, hnsInSteps, ?_⟩, ?_⟩
          · simp [hidne]
          · simp
        · intro m hm
          dsimp only at hm
          have hmm : m = ns.stepNumber := by
            simpa using hm.symm
          subst hmm
          dsimp only
          simp only [steps_create_notification, steps_log_action]
          rw [findNum_updateStep _ p.id ns.id ns.stepNumber
            (fun s => { s with status := "In Progress" }) (fun s => ⟨rfl, rfl⟩)]
          simp only [steps_updateProject]
          rw [findNum_updateStep _ p.id cs.id ns.stepNumber
            (fun s => { s with status := "Completed", completedAt := some now })
            (fun s => ⟨rfl, rfl⟩)]
          rw [hnsfind]
          refine ⟨{ ns with status := "In Progress" }, ?_, rfl⟩
          simp [hidne]

theorem send_back_preserves_inv {db : Db} {uid pid : Nat} {p : Project}
    {c : Option String} {db' : Db}
    (hwf : WfIds db) (hp : projectById db pid = some p) (hsi : StrongInv db p)
    (h : send_back_step db uid pid c = .ok db') :
    WfIds db' ∧ ∃ q, projectById db' pid = some q ∧ StrongInv db' q := by
  unfold send_back_step at h
  simp only [hp] at h
  cases hcs : get_current_step db p with
  | none => simp only [hcs] at h; cases h
  | some cs =>
  simp only [hcs] at h
  by_cases hass : cs.assignedUserId = uid
  case neg => rw [if_neg hass] at h; cases h
  case pos =>
  rw [if_pos hass] at h
  cases c with
  | none => cases h
  | some cstr =>
  dsimp only at h
  by_cases hce : cstr = ""
  case pos => rw [if_pos hce] at h; cases h
  case neg =>
  rw [if_neg hce] at h
  cases hgp : get_previous_step db p with
  | none => simp only [hgp] at h; cases h
  | some ps =>
  simp only [hgp] at h
  rw [Except.ok.injEq] at h
  subst h
  obtain ⟨hc, hz, hcsmem, hcspid, hcsfind⟩ := get_current_step_spec hcs
  obtain ⟨hcsIP, hcsInSteps⟩ := current_is_in_progress hsi hcs
  have hid := projectById_id hp
  obtain ⟨n, hn, hnz, hpsmem, hpspid, hnslt, hpsmin, hpsfind⟩ :=
    get_previous_step_spec hgp
  have hnn : n = cs.stepNumber := by
    rw [hc] at hn
    exact (Option.some.injEq _ _ ▸ hn).symm
  subst hnn
  have hpsne : ps ≠ cs := fun he => absurd (he ▸ hnslt) (lt_irrefl _)
  have hidne : ps.id ≠ cs.id := ne_id_of_ne hwf.1 hpsmem hcsmem hpsne
  have hpsInSteps : ps ∈ stepsOf db p.id := by
    rw [stepsOf, List.mem_filter]
    exact ⟨hpsmem, by simp [hpspid]⟩
  have hstatusne : p.status ≠ "Completed" := by
    intro hcompl
    have hcn := hsi.1.1.mpr hcompl
    rw [hc] at hcn
    cases hcn
  have key : ∀ x0 ∈ stepsOf db p.id,
      ((fun t : ProjectStep => if (t.id == ps.id) = true then
        { t with status := "In Progress", completedAt := none } else t)
        ((fun t : ProjectStep => if (t.id == cs.id) = true then
          { t with status := "Sent Back" } else t)
          x0)).status = "In Progress" →
      ((fun t : ProjectStep => if (t.id == ps.id) = true then
        { t with status := "In Progress", completedAt := none } else t)
        ((fun t : ProjectStep => if (t.id == cs.id) = true then
          { t with status := "Sent Back" } else t)
          x0)) = { ps with status := "In Progress", completedAt := none } := by
    intro x0 hx0
    by_cases hxc : x0.id = cs.id
    · rw [updSB_hit hxc]
      have hne2 : ({ x0 with status := "Sent Back" } :
          ProjectStep).id ≠ ps.id := fun he => hidne (he.symm.trans hxc)
      rw [updIPclear_miss hne2]
      intro hIP
      exact absurd hIP sentback_ne_inprogress
    · rw [updSB_miss hxc]
      by_cases hxn : x0.id = ps.id
      · have hx0ps : x0 = ps := by
          have hmem0 : x0 ∈ db.steps := List.mem_of_mem_filter hx0
          exact List.inj_on_of_nodup_map hwf.1 hmem0 hpsmem hxn
        rw [updIPclear_hit hxn, hx0ps]
        intro hIP
        rfl
      · rw [updIPclear_miss hxn]
        intro hIP
        exact absurd (congrArg ProjectStep.id
          (hsi.1.2.1 x0 hx0 cs hcsInSteps hIP hcsIP)) hxc
  refine ⟨?_, ?_⟩
  · refine wfIds_updateStep ?_ ps.id
      (fun s => { s with status := "In Progress", completedAt := none })
      (fun s => ⟨rfl, rfl⟩)
    exact wfIds_updateProject
      (wfIds_updateStep hwf cs.id
        (fun s => { s with status := "Sent Back" })
        (fun s => ⟨rfl, rfl⟩)) pid
      (fun q => { q with currentStepNumber := some ps.stepNumber })
      (fun q => rfl)
  · refine ⟨{ p with currentStepNumber := some ps.stepNumber }, ?_, ?_⟩
    · simp only [projectById_create_notification, projectById_log_action,
        projectById_updateStep]
      rw [projectById_updateProject _ pid pid
        (fun q => { q with currentStepNumber := some ps.stepNumber })
        (fun q => rfl)]
      simp only [projectById_updateStep]
      rw [hp]
      simp [hid]
    · refine ⟨⟨?_, ?_, ?_⟩, ?_⟩
      · exact ⟨fun hx => absurd hx (by simp), fun hx => absurd hx hstatusne⟩
      · intro s hs t ht hsP htP
        dsimp only at hs ht
        simp only [stepsOf_create_notification, stepsOf_log_action] at hs ht
        rw [stepsOf_updIPclear _ p.id ps.id] at hs ht
        simp only [stepsOf_updateProject] at hs ht
        rw [stepsOf_updSB _ p.id cs.id] at hs ht
        obtain ⟨s1x, hs1x, hes⟩ := List.mem_map.mp hs
        obtain ⟨s0, hs0, hes0⟩ := List.mem_map.mp hs1x
        obtain ⟨t1x, ht1x, het⟩ := List.mem_map.mp ht
        obtain ⟨t0, ht0, het0⟩ := List.mem_map.mp ht1x
        subst hes
        subst hes0
        subst het
        subst het0
        have e1 := key s0 hs0 hsP
        have e2 := key t0 ht0 htP
        exact e1.trans e2.symm
      · intro m hm
        dsimp only at hm
        have hmm : m = ps.stepNumber := by
          simpa using hm.symm
        subst hmm
        refine ⟨{ ps with status := "In Progress", completedAt := none },
          ?_, rfl, rfl⟩
        dsimp only
        simp only [stepsOf_create_notification, stepsOf_log_action]
        rw [stepsOf_updIPclear _ p.id ps.id]
        simp only [stepsOf_updateProject]
        rw [stepsOf_updSB _ p.id cs.id]
        refine List.mem_map.mpr ⟨ps, List.mem_map.mpr ⟨ps, hpsInSteps, ?_⟩, ?_⟩
        · simp [hidne]
        · simp
      · intro m hm
        dsimp only at hm
        have hmm : m = ps.stepNumber := by
          simpa using hm.symm
        subst hmm
        dsimp only
        simp only [steps_create_notification, steps_log_action]
        rw [findNum_updIPclear _ p.id ps.id ps.stepNumber]
        simp only [steps_updateProject]
        rw [findNum_updSB _ p.id cs.id ps.stepNumber]
        rw [hpsfind]
        refine ⟨{ ps with status := "In Progress", completedAt := none }, ?_, rfl⟩
        simp [hidne]

theorem find?_append_left_none {α : Type} (l₁ l₂ : List α) (p : α → Bool)
    (h : l₁.find? p = none) : (l₁ ++ l₂).find? p = l₂.find? p := by
  induction l₁ with
  | nil => rfl
  | cons a t ih =>
    rw [List.cons_append]
    simp only [List.find?] at h ⊢
    cases hpa : p a with
    | true =>
      simp only [hpa] at h
      cases h
    | false =>
      simp only [hpa] at h ⊢
      exact ih h

theorem steps_insertSteps (db : Db) (pid : Nat) (l : List StepInput) :
    (insertSteps db pid l).steps = db.steps ++ stepsFromInputs pid db.nextStepId l :=
  rfl

theorem getLastD_three {α : Type} (a b c d : α) :
    ([a, b, c] : List α).getLastD d = c := rfl

theorem projectById_append_fresh (db : Db) (newp : Project) (x : Nat)
    (hx : newp.id = x)
    (hfresh : db.projects.find? (fun q => q.id == x) = none) :
    projectById { db with projects := db.projects ++ [newp],
                           nextProjectId := db.nextProjectId + 1 } x = some newp := by
  show (db.projects ++ [newp]).find? (fun q => q.id == x) = some newp
  rw [find?_append_left_none _ _ _ hfresh]
  simp [List.find?, hx]

theorem create_establishes_inv {db : Db} {uid : Nat} {data : CreateProjectInput}
    {db' : Db} (hwf : WfIds db)
    (h : create_project db uid data = .ok db') :
    WfIds db' ∧ ∃ q, projectById db' db.nextProjectId = some q ∧ StrongInv db' q := by
  unfold create_project create_project_commits at h
  by_cases hemp : data.steps.isEmpty
  · rw [if_pos hemp] at h
    simp [Except.map] at h
  rw [if_neg hemp] at h
  cases hfind : data.steps.find? (fun sd => (userById db sd.assignedUserId).isNone) with
  | some sd =>
    simp only [hfind] at h
    simp [Except.map] at h
  | none =>
  simp only [hfind] at h
  cases hm : maxStepNumber data.steps with
  | none =>
    simp only [hm] at h
    simp [Except.map] at h
  | some highest =>
  simp only [hm] at h
  have hleft : db.steps.find? (fun s => s.projectId == db.nextProjectId &&
      s.stepNumber == highest) = none := by
    rw [List.find?_eq_none]
    intro s hs
    have hlt := hwf.2.2.1 s hs
    simp only [Bool.and_eq_true, beq_iff_eq, not_and]
    intro hp
    omega
  try dsimp only at h
  simp only [steps_updateProject, steps_insertSteps] at h
  try dsimp only at h
  rw [find?_append_left_none _ _ _ hleft] at h
  cases hnew : (stepsFromInputs db.nextProjectId db.nextStepId data.steps).find?
      (fun s => s.projectId == db.nextProjectId && s.stepNumber == highest) with
  | none =>
    exfalso
    obtain ⟨hex, -⟩ := maxStepNumber_spec hm
    obtain ⟨s, hs, hnum⟩ :=
      @stepsFromInputs_exists_num db.nextProjectId db.nextStepId data.steps highest hex
    have hprops := stepsFromInputs_props s hs
    have hnot := List.find?_eq_none.mp hnew s hs
    refine hnot ?_
    simp [hprops.1, hnum]
  | some hso =>
  simp only [hnew] at h
  simp only [Except.map] at h
  rw [Except.ok.injEq] at h
  rw [getLastD_three] at h
  subst h
  have hsomem : hso ∈ stepsFromInputs db.nextProjectId db.nextStepId data.steps :=
    List.mem_of_find?_eq_some hnew
  have hsopred := List.find?_some hnew
  simp only [Bool.and_eq_true, beq_iff_eq] at hsopred
  obtain ⟨hsopid, hsonum⟩ := hsopred
  have hsoprops := stepsFromInputs_props hso hsomem
  have hempty : stepsOf { db with
      projects := db.projects ++
        [{ id := db.nextProjectId, projectName := data.projectName,
           description := data.description, ownerId := uid,
           status := "In Progress", currentStepNumber := none }],
      nextProjectId := db.nextProjectId + 1 } db.nextProjectId = [] := by
    show db.steps.filter (fun s => s.projectId == db.nextProjectId) = []
    rw [List.filter_eq_nil_iff]
    intro s hs
    have hlt := hwf.2.2.1 s hs
    simp only [beq_iff_eq]
    omega
  have hnewSteps : stepsOf (insertSteps { db with
      projects := db.projects ++
        [{ id := db.nextProjectId, projectName := data.projectName,
           description := data.description, ownerId := uid,
           status := "In Progress", currentStepNumber := none }],
      nextProjectId := db.nextProjectId + 1 } db.nextProjectId data.steps)
      db.nextProjectId = stepsFromInputs db.nextProjectId db.nextStepId data.steps :=
    stepsOf_insertSteps_self _ _ _ hempty
  have hnodup : ((stepsFromInputs db.nextProjectId db.nextStepId data.steps).map
      (fun s => s.id)).Nodup := by
    rw [stepsFromInputs_map_id]
    exact List.nodup_range' _ _ 1 (by decide)
  have key2 : ∀ x0 ∈ stepsFromInputs db.nextProjectId db.nextStepId data.steps,
      ((fun t : ProjectStep => if (t.id == hso.id) = true then
        { t with status := "In Progress" } else t) x0).status = "In Progress" →
      ((fun t : ProjectStep => if (t.id == hso.id) = true then
        { t with status := "In Progress" } else t) x0) =
        { hso with status := "In Progress" } := by
    intro x0 hx0
    by_cases hxc : x0.id = hso.id
    · have hx0so : x0 = hso := List.inj_on_of_nodup_map hnodup hx0 hsomem hxc
      rw [updIP_hit hxc, hx0so]
      intro hIP
      rfl
    · rw [updIP_miss hxc]
      intro hIP
      rw [(stepsFromInputs_props x0 hx0).2.1] at hIP
      exact absurd hIP pending_ne_inprogress
  have hleftP : db.projects.find? (fun q => q.id == db.nextProjectId) = none := by
    rw [List.find?_eq_none]
    intro q hq
    have hlt := hwf.2.2.2 q hq
    simp only [beq_iff_eq]
    omega
  refine ⟨?_, ?_⟩
  · exact wfIds_updateStep
      (wfIds_updateProject
        (wfIds_insertSteps (wfIds_addProject hwf _ rfl) db.nextProjectId data.steps
          (Nat.lt_succ_self _))
        db.nextProjectId (fun p => { p with currentStepNumber := some highest })
        (fun q => rfl))
      hso.id (fun t => { t with status := "In Progress" }) (fun s => ⟨rfl, rfl⟩)
  · refine ⟨{ id := db.nextProjectId, projectName := data.projectName,
              description := data.description, ownerId := uid,
              status := "In Progress", currentStepNumber := some highest }, ?_, ?_⟩
    · simp only [projectById_create_notification, projectById_log_action,
        projectById_updateStep]
      rw [projectById_updateProject _ db.nextProjectId db.nextProjectId
        (fun q => { q with currentStepNumber := some highest }) (fun q => rfl)]
      simp only [projectById_insertSteps]
      rw [projectById_append_fresh db _ db.nextProjectId rfl hleftP]
      simp
    · refine ⟨⟨?_, ?_, ?_⟩, ?_⟩
      · exact ⟨fun hx => by simp at hx, fun hx => by simp at hx⟩
      · intro s hs t ht hsP htP
        dsimp only at hs ht
        simp only [stepsOf_create_notification, stepsOf_log_action] at hs ht
        rw [stepsOf_updIP _ db.nextProjectId hso.id] at hs ht
        simp only [stepsOf_updateProject] at hs ht
        rw [hnewSteps] at hs ht
        obtain ⟨s0, hs0, hes⟩ := List.mem_map.mp hs
        obtain ⟨t0, ht0, het⟩ := List.mem_map.mp ht
        subst hes
        subst het
        exact (key2 s0 hs0 hsP).trans (key2 t0 ht0 htP).symm
      · intro m hm2
        dsimp only at hm2
        have hmm : m = highest := by
          simpa using hm2.symm
        subst hmm
        refine ⟨{ hso with status := "In Progress" }, ?_, rfl, ?_⟩
        · dsimp only
          simp only [stepsOf_create_notification, stepsOf_log_action]
          rw [stepsOf_updIP _ db.nextProjectId hso.id]
          simp only [stepsOf_updateProject]
          rw [hnewSteps]
          exact List.mem_map.mpr ⟨hso, hsomem, updIP_hit rfl⟩
        · exact hsonum
      · intro m hm2
        dsimp only at hm2
        have hmm : m = highest := by
          simpa using hm2.symm
        rw [hmm]
        try dsimp only
        simp only [steps_create_notification, steps_log_action]
        rw [findNum_updIP _ db.nextProjectId hso.id highest]
        simp only [steps_updateProject, steps_insertSteps]
        try dsimp only
        rw [find?_append_left_none _ _ _ hleft, hnew]
        refine ⟨{ hso with status := "In Progress" }, ?_, rfl⟩
        simp

/-- The store after user 3 sends the scenario project back from step 2 to
step 3 with comment "redo draft". -/
def c1s3 : Db := okD (send_back_step s2 3 1 (some "redo draft")) s2

/-- C1 (amended): the claimed invariant — `current_step_number` is null
iff the project status is Completed, at most one step of the project is
In Progress, and a non-null current number is the number of an In
Progress step — is established by CreateProject and preserved by Forward
and SendBack on any well-formed store, in the strengthened aligned form
`StrongInv` (which contains the invariant `ClaimInv` as its first
component).  The claim as frozen also ranges over EditProject, and there
it is false: `edit_project` recreates every step as Pending while
repointing `current_step_number` at the new maximum, so the invariant is
broken in a reachable state (see the counterexample). -/
theorem c1_invariant_amended (db : Db) (uid pid : Nat) (p : Project)
    (data : CreateProjectInput) (c : String) (mc : Option String) (now : Nat)
    (db' : Db) :
    (WfIds db → create_project db uid data = .ok db' →
      WfIds db' ∧ ∃ q, projectById db' db.nextProjectId = some q ∧
        StrongInv db' q ∧ ClaimInv db' q) ∧
    (WfIds db → projectById db pid = some p → StrongInv db p →
      forward_step db uid pid c now = .ok db' →
      WfIds db' ∧ ∃ q, projectById db' pid = some q ∧
        StrongInv db' q ∧ ClaimInv db' q) ∧
    (WfIds db → projectById db pid = some p → StrongInv db p →
      send_back_step db uid pid mc = .ok db' →
      WfIds db' ∧ ∃ q, projectById db' pid = some q ∧
        StrongInv db' q ∧ ClaimInv db' q) := by
  refine ⟨?_, ?_, ?_⟩
  · intro hwf h
    obtain ⟨hw, q, hq, hs⟩ := create_establishes_inv hwf h
    exact ⟨hw, q, hq, hs, hs.1⟩
  · intro hwf hp hsi h
    obtain ⟨hw, q, hq, hs⟩ := forward_preserves_inv hwf hp hsi h
    exact ⟨hw, q, hq, hs, hs.1⟩
  · intro hwf hp hsi h
    obtain ⟨hw, q, hq, hs⟩ := send_back_preserves_inv hwf hp hsi h
    exact ⟨hw, q, hq, hs, hs.1⟩

theorem c1_invariant_witness :
    (WfIds s1 ∧ ∃ q, projectById s1 1 = some q ∧ StrongInv s1 q ∧ ClaimInv s1 q) ∧
    (WfIds s2 ∧ ∃ q, projectById s2 1 = some q ∧ StrongInv s2 q ∧ ClaimInv s2 q) ∧
    (WfIds c1s3 ∧ ∃ q, projectById c1s3 1 = some q ∧ StrongInv c1s3 q ∧
      ClaimInv c1s3 q) := by
  refine ⟨?_, ?_, ?_⟩
  · exact (c1_invariant_amended baseDb 1 1 s1proj scenarioInput "" none 0 s1).1
      ((wfIdsB_iff baseDb).mp (by decide)) rfl
  · exact (c1_invariant_amended s1 2 1 s1proj scenarioInput "" none 10 s2).2.1
      ((wfIdsB_iff s1).mp (by decide)) rfl
      (strongInv_of_B (by decide) (by decide)) rfl
  · exact (c1_invariant_amended s2 3 1 s2proj scenarioInput ""
      (some "redo draft") 0 c1s3).2.2
      ((wfIdsB_iff s2).mp (by decide)) rfl
      (strongInv_of_B (by decide) (by decide)) rfl

/-- Editing the freshly created project succeeds and leaves a reachable
store whose project violates the invariant: `current_step_number` is 2
but no step of the project is In Progress (all replacement rows are
Pending), so the claim is false for EditProject. -/
theorem c1_invariant_counterexample :
    isOkB (edit_project c4pre 1 1 c4edit) = true ∧
    (projectById c4db 1).map (fun p => claimInvB c4db p) = some false := by
  exact ⟨rfl, rfl⟩

end NewsWorkflow
